import Mathlib

/-!
# Verification of the clang-tidy header-guard check (HeaderGuard.cpp)

A shallow embedding of `clang-tidy/utils/HeaderGuard.cpp`:

* `cleanPath` — path canonicalization (drop `.`, resolve `..`, rejoin with `/`);
* the preprocessor-callback state (`PPState`): the ordered macro-definition
  sequence, the file map keyed by canonical path, the ifndef-candidate map and
  the endif-pairing map, built by `step` from the event stream;
* the end-of-unit reconciliation `EndOfMainFile` with its helpers
  `checkHeaderGuardDefinition`, `checkEndifComment` and `checkGuardlessHeaders`;
* the default policy hooks `shouldSuggestEndifCommentDefault`,
  `shouldFixHeaderGuardDefault`, `shouldSuggestToAddHeaderGuardDefault`.

Source locations are opaque totally ordered tokens, modelled as `Nat`, with `0`
playing the role of the invalid (default-constructed) `SourceLocation`.  The
`SourceManager` is modelled as an abstract environment `SourceMgr` resolving a
location to the file entry containing it, deciding written-in-same-file, and
giving the raw character data at a location.  `llvm::StringMap` and `std::map`
are modelled as association lists with insert-or-overwrite semantics; a
`std::map` lookup through `operator[]` that misses yields the default value
(the invalid location), as in the source.
-/

/-- Source locations: opaque tokens; `0` is the invalid location
(`SourceLocation()`), any other value is valid. -/
abbrev Loc := Nat

/-- Validity of a location, `SourceLocation::isValid`. -/
def locValid (l : Loc) : Bool := l != 0

/-- A file entry, together with the start-of-file / end-of-file locations the
source obtains through `translateFile` + `getLocForStartOfFile` /
`getLocForEndOfFile`.  `startLoc` may be the invalid location (the source
checks `StartLoc.isInvalid()`). -/
structure FileEntry where
  name : String
  startLoc : Loc
  endLoc : Loc
deriving DecidableEq

/-- The data of a macro-name token: its spelling (`getIdentifierInfo()->getName()`;
identifier identity is interned, so spelling equality is identity) and its
location (`getLocation()`). -/
structure MacroTok where
  name : String
  loc : Loc
deriving DecidableEq

/-- The data the source reads off a `MacroDirective`: the oracle verdict
`getMacroInfo()->isUsedForHeaderGuard()` and the definition location
`getMacroInfo()->getDefinitionLoc()`. -/
structure MacroDir where
  usedForHeaderGuard : Bool
  defLoc : Loc
deriving DecidableEq

/-- The slice of `SourceManager` the check uses. `fileOf` is
`getFileEntryForID (getFileID l)` (possibly null), `sameFile` is
`isWrittenInSameFile`, and `charData` is `getCharacterData` (the character
buffer from the location on; total, as in clang, which hands back a dummy
buffer for an invalid location rather than failing). -/
structure SourceMgr where
  fileOf : Loc → Option FileEntry
  sameFile : Loc → Loc → Bool
  charData : Loc → List Char

/-- The `HeaderGuardCheck` interface consumed by the callbacks: the virtual
naming policy `getHeaderGuard(FileName, OldGuard)` and the three policy
hooks. -/
structure Check where
  getHeaderGuard : String → String → String
  shouldSuggestEndifComment : String → Bool
  shouldFixHeaderGuard : String → Bool
  shouldSuggestToAddHeaderGuard : String → Bool

/-- Suffix test on the character data, `StringRef::endswith`. -/
def strEndsWith (s suffix : String) : Bool := suffix.data.isSuffixOf s.data

/-! ## Path canonicalization (`cleanPath`, source lines 22–38)

The source walks the path with `llvm::sys::path::begin`/`end` (POSIX style):
an absolute path yields a root component (`/a/b` gives `/`, `a`, `b`; a
`//net`-style prefix gives `//net`, `/`, …), runs of separators between
components collapse, and a trailing separator yields a final `.` component.
On `..` the source resizes the accumulated string to
`llvm::sys::path::parent_path(NewPath).size()`, so `parent_path` is modelled
too.  Because the accumulator inserts a `/` before every component after the
first, absolute paths come out with a doubled root (`/a/b` becomes `//a/b`)
and the function is not idempotent on them. -/

/-- Component iteration after the first component (the `operator++` walk of
`llvm::sys::path::const_iterator`): runs of separators are skipped, maximal
separator-free chunks are the components, and a trailing separator run
yields a final `.` component.  `acc` is the (reversed) chunk in progress and
`pend` records that a separator was just crossed with no chunk started. -/
def tailSplitAux : List Char → List Char → Bool → List (List Char)
  | [], acc, pend =>
    if acc.isEmpty then (if pend then [['.']] else []) else [acc.reverse]
  | c :: rest, acc, _pend =>
    if c = '/' then
      if acc.isEmpty then tailSplitAux rest [] true
      else acc.reverse :: tailSplitAux rest [] true
    else tailSplitAux rest (c :: acc) false

/-- The components of a path, as `llvm::sys::path` iteration yields them
(POSIX): a leading `//net` prefix (exactly two separators followed by a
non-separator) is one component, followed by a one-character root `/`
component when more follows; any other leading separator is a root `/`
component; the remainder is the `tailSplitAux` walk. -/
def llvmComponents : List Char → List (List Char)
  | [] => []
  | c :: rest =>
    if c = '/' then
      match rest with
      | [] => [['/']]
      | c2 :: rest2 =>
        if c2 = '/' ∧ rest2.head? ≠ some '/' ∧ rest2 ≠ [] then
          match rest2.dropWhile (fun a => a != '/') with
          | [] => ['/' :: '/' :: rest2.takeWhile (fun a => a != '/')]
          | _ :: after2 =>
            ('/' :: '/' :: rest2.takeWhile (fun a => a != '/')) ::
              ['/'] :: tailSplitAux after2 [] false
        else ['/'] :: tailSplitAux rest [] false
    else tailSplitAux (c :: rest) [] false

/-- Rejoin components the way `cleanPath`'s accumulator does: a `/` between
any two components (used to state component-level facts about the fold). -/
def joinPath : List (List Char) → List Char
  | [] => []
  | [c] => c
  | c :: c' :: rest => c ++ '/' :: joinPath (c' :: rest)

/-- Index of the last separator in a path string, `find_last_of('/')`. -/
def lastSepIdx : List Char → Option Nat
  | [] => none
  | c :: rest =>
    match lastSepIdx rest with
    | some i => some (i + 1)
    | none => if c = '/' then some 0 else none

/-- Index search for `find_first_of('/', i)`: `i` is the running absolute
index of the list head. -/
def firstSepIdxAux : List Char → Nat → Option Nat
  | [], _ => none
  | c :: rest, i => if c = '/' then some i else firstSepIdxAux rest (i + 1)

/-- Absolute index of the first separator at or after position `i`
(`find_first_of('/', i)`). -/
def firstSepIdxFrom (s : List Char) (i : Nat) : Option Nat :=
  firstSepIdxAux (s.drop i) i

/-- Start position of the filename component, `llvm::sys::path`'s
`filename_pos` (POSIX). -/
def filenamePos (s : List Char) : Nat :=
  if s.getLast? = some '/' then s.length - 1
  else
    match lastSepIdx s with
    | none => 0
    | some pos => if pos = 1 ∧ s.head? = some '/' then 0 else pos + 1

/-- Start position of the root directory, `llvm::sys::path`'s
`root_dir_start` (POSIX): the separator ending a `//net` prefix, or
position 0 for any other leading separator; `none` is `npos`. -/
def rootDirStart (s : List Char) : Option Nat :=
  if 3 < s.length ∧ s.head? = some '/' ∧ s[1]? = some '/' ∧ s[2]? ≠ some '/' then
    firstSepIdxFrom s 2
  else if s.head? = some '/' then some 0
  else none

/-- The separator-skipping loop of `parent_path_end`: decrement the end
position while the previous character is a separator that is not the root
directory. -/
def sepSkipLoop (s : List Char) (rootPos : Option Nat) : Nat → Nat
  | 0 => 0
  | e + 1 => if some e ≠ rootPos ∧ s[e]? = some '/' then sepSkipLoop s rootPos e else e + 1

/-- End position of the parent path, `llvm::sys::path`'s `parent_path_end`;
`none` is `npos`. -/
def parentPathEnd (s : List Char) : Option Nat :=
  let endPos0 := filenamePos s
  let filenameWasSep := s[endPos0]? = some '/'
  let rootPos := rootDirStart s
  let endPos := sepSkipLoop s rootPos endPos0
  if endPos = 1 ∧ rootPos = some 0 ∧ filenameWasSep then none else some endPos

/-- The parent path, `llvm::sys::path::parent_path` (POSIX): the prefix of
the string up to `parent_path_end`. -/
def parentPath (s : List Char) : List Char :=
  match parentPathEnd s with
  | none => []
  | some e => s.take e

/-- One iteration of `cleanPath`'s loop over the accumulated string: `.` is
dropped, `..` resizes the accumulator to the size of its parent path
(`NewPath.resize(parent_path(NewPath).size())`), and any other component is
appended, preceded by `/` when the accumulator is nonempty. -/
def cleanFoldStep (NewPath : List Char) (c : List Char) : List Char :=
  if c = ['.'] then NewPath
  else if c = ['.', '.'] then NewPath.take (parentPath NewPath).length
  else (if NewPath.isEmpty then NewPath else NewPath ++ ['/']) ++ c

/-- The accumulated-string fold of `cleanPath` over a component list. -/
def cleanFold (comps : List (List Char)) : List Char :=
  comps.foldl cleanFoldStep []

/-- Component-level counterpart of `cleanFoldStep`: on relative inputs the
string-level `..` resize coincides with dropping the last emitted
component. -/
def cleanStep (acc : List (List Char)) (c : List Char) : List (List Char) :=
  if c = ['.'] then acc
  else if c = ['.', '.'] then acc.dropLast
  else acc ++ [c]

/-- Component-level clean fold (used to reason about `cleanFold` on relative
paths). -/
def cleanComponents (xs : List (List Char)) : List (List Char) :=
  xs.foldl cleanStep []

/-- The canonicalizer `cleanPath` (source lines 22–38): walk the
`llvm::sys::path` components, drop `.`, resize to the parent path on `..`,
and append any other component behind a `/` separator. -/
def cleanPath (p : String) : String := ⟨cleanFold (llvmComponents p.data)⟩

/-! ## Association-list maps -/

/-- Lookup in an association-list map. -/
def alistLookup {α β : Type} [DecidableEq α] (k : α) : List (α × β) → Option β
  | [] => none
  | p :: rest => if p.1 = k then some p.2 else alistLookup k rest

/-- Insert-or-overwrite (`map[k] = v`). -/
def alistInsert {α β : Type} [DecidableEq α] (k : α) (v : β) :
    List (α × β) → List (α × β)
  | [] => [(k, v)]
  | p :: rest => if p.1 = k then (k, v) :: rest else p :: alistInsert k v rest

/-- Erase a key (`map.erase(k)`; keys are unique in map states). -/
def alistErase {α β : Type} [DecidableEq α] (k : α) :
    List (α × β) → List (α × β)
  | [] => []
  | p :: rest => if p.1 = k then rest else p :: alistErase k rest

/-- Number of entries stored under key `k`. -/
def keyCount {α β : Type} [DecidableEq α] (k : α) (m : List (α × β)) : Nat :=
  m.countP (fun p => decide (p.1 = k))

/-- The map invariant: every key occurs at most once. -/
def WFkeys {α β : Type} [DecidableEq α] (m : List (α × β)) : Prop :=
  ∀ k : α, keyCount k m ≤ 1

/-! ## The per-unit correlator state and its event step -/

/-- The reason enum `PPCallbacks::FileChangeReason`. -/
inductive FileChangeReason where
  | enterFile | exitFile | systemHeaderPragma | renameFile
deriving DecidableEq

/-- The file-kind enum `SrcMgr::CharacteristicKind`. -/
inductive CharacteristicKind where
  | cUser | cSystem | cExternCSystem
deriving DecidableEq

/-- The preprocessing events `HeaderGuardPPCallbacks` observes for one unit.
For `ifndefDirective`, `mdPresent` records whether the tested macro had a
directive (`MD` non-null), in which case the callback records nothing. -/
inductive Event where
  | fileChanged (loc : Loc) (reason : FileChangeReason) (fileType : CharacteristicKind)
  | ifndefDirective (loc : Loc) (tok : MacroTok) (mdPresent : Bool)
  | macroDefined (tok : MacroTok) (md : MacroDir)
  | endifDirective (loc : Loc) (ifLoc : Loc)
deriving DecidableEq

/-- The four per-unit containers of `HeaderGuardPPCallbacks` (source lines
231–235). -/
structure PPState where
  Macros : List (MacroTok × MacroDir)
  Files : List (String × FileEntry)
  Ifndefs : List (String × (Loc × Loc))
  EndIfs : List (Loc × Loc)
deriving DecidableEq

/-- The empty per-unit state. -/
def initState : PPState := ⟨[], [], [], []⟩

/-- One event-handler step (source lines 46–80): `FileChanged` records the
entered user file keyed by canonical path, `Ifndef` upserts the candidate for
a genuine test, `MacroDefined` appends to the ordered sequence, `Endif`
records the pairing keyed by the opening directive's location. -/
def step (sm : SourceMgr) (st : PPState) : Event → PPState
  | .fileChanged loc reason ftype =>
    if reason = .enterFile ∧ ftype = .cUser then
      match sm.fileOf loc with
      | some fe => { st with Files := alistInsert (cleanPath fe.name) fe st.Files }
      | none => st
    else st
  | .ifndefDirective loc tok mdPresent =>
    if mdPresent then st
    else { st with Ifndefs := alistInsert tok.name (loc, tok.loc) st.Ifndefs }
  | .macroDefined tok md => { st with Macros := st.Macros ++ [(tok, md)] }
  | .endifDirective loc ifLoc => { st with EndIfs := alistInsert ifLoc loc st.EndIfs }

/-- Folding a whole event history for one unit from the empty state. -/
def runEvents (sm : SourceMgr) (evs : List Event) : PPState :=
  evs.foldl (step sm) initState

/-! ## Diagnostics -/

/-- Fix-it hints: insertions, token-range replacements and char-range
replacements. -/
inductive FixItHint where
  | insertion (loc : Loc) (text : String)
  | replacementToken (rangeBegin rangeEnd : Loc) (text : String)
  | replacementChar (rangeBegin rangeEnd : Loc) (text : String)
deriving DecidableEq

/-- A diagnostic: location, message and attached fix-its. -/
structure Diag where
  loc : Loc
  message : String
  fixits : List FixItHint
deriving DecidableEq

/-- Message of the non-conforming-name diagnostic (source line 146). -/
def nonConformingMsg : String := "header guard does not follow preferred style"

/-- Message of the endif-comment diagnostic (source lines 170–171). -/
def endifCommentMsg : String :=
  "#endif for a header guard should reference the guard macro in a comment"

/-- Message of the non-topmost-guard diagnostic (source line 210). -/
def nonTopmostMsg : String :=
  "Header guard after code/includes. Consider moving it up."

/-- Message of the missing-guard diagnostic (source line 219). -/
def missingGuardMsg : String := "header is missing header guard"

/-! ## The reconciliation helpers -/

/-- The naming check `checkHeaderGuardDefinition` (source lines 138–158): if the ifndef name
location is valid and the current guard matches neither the computed name nor
the computed name plus one trailing underscore, emit the naming diagnostic
with two token-range replacements and return the computed name; otherwise
return the current name unchanged. -/
def checkHeaderGuardDefinition (chk : Check) (ifndefLoc defineLoc : Loc)
    (fileName curHeaderGuard : String) : List Diag × String :=
  let cppVar := chk.getHeaderGuard fileName curHeaderGuard
  let cppVarUnder := cppVar ++ "_"
  if locValid ifndefLoc ∧ curHeaderGuard ≠ cppVar ∧ curHeaderGuard ≠ cppVarUnder then
    ([{ loc := ifndefLoc, message := nonConformingMsg,
        fixits := [FixItHint.replacementToken ifndefLoc
                     (ifndefLoc + curHeaderGuard.length) cppVar,
                   FixItHint.replacementToken defineLoc
                     (defineLoc + curHeaderGuard.length) cppVar] }],
     cppVar)
  else ([], curHeaderGuard)

/-- The raw text of the line at a location: `getCharacterData` truncated at
the first `\r` or `\n` (`strcspn(EndIfData, "\r\n")`). -/
def rawLine (sm : SourceMgr) (l : Loc) : List Char :=
  (sm.charData l).takeWhile (fun c => c != '\r' && c != '\n')

/-- The endif-comment check `checkEndifComment` (source lines 162–177): if the endif location is
valid and the raw line ends with neither `// <guard>` nor `/* <guard> */`,
emit the endif-comment diagnostic replacing the char range of the directive
text with `endif  // <guard>`. -/
def checkEndifComment (sm : SourceMgr) (endIf : Loc) (headerGuard : String) :
    List Diag :=
  let endIfStr : String := ⟨rawLine sm endIf⟩
  if locValid endIf ∧ strEndsWith endIfStr ("// " ++ headerGuard) = false ∧
      strEndsWith endIfStr ("/* " ++ headerGuard ++ " */") = false then
    [{ loc := endIf, message := endifCommentMsg,
       fixits := [FixItHint.replacementChar endIf (endIf + (rawLine sm endIf).length)
                    ("endif  // " ++ headerGuard)] }]
  else []

/-- The non-topmost scan predicate (source lines 203–214): a macro entry
whose spelling is the computed guard name or that plus one underscore and
whose definition token is written in the same file as start-of-file. -/
def matchesGuard (sm : SourceMgr) (startLoc : Loc) (cppVar cppVarUnder : String)
    (e : MacroTok × MacroDir) : Bool :=
  (e.1.name == cppVar || e.1.name == cppVarUnder) && sm.sameFile startLoc e.1.loc

/-- First macro entry matching the non-topmost scan (the loop breaks at the
first hit). -/
def findGuardMacro (sm : SourceMgr) (startLoc : Loc) (cppVar cppVarUnder : String)
    (Macros : List (MacroTok × MacroDir)) : Option (MacroTok × MacroDir) :=
  Macros.find? (matchesGuard sm startLoc cppVar cppVarUnder)

/-- Body of the guardless-file loop for one surviving file record (source
lines 185–227): skip unaccepted paths and invalid start locations; when a
guard-named macro sits in the file emit the non-topmost diagnostic with no
fix-its, else emit the missing-guard diagnostic with the two insertions. -/
def guardlessFor (sm : SourceMgr) (chk : Check) (Macros : List (MacroTok × MacroDir))
    (fileName : String) (fe : FileEntry) : List Diag :=
  if !chk.shouldSuggestToAddHeaderGuard fileName then []
  else if !locValid fe.startLoc then []
  else
    let cppVar := chk.getHeaderGuard fileName ""
    let cppVarUnder := cppVar ++ "_"
    match findGuardMacro sm fe.startLoc cppVar cppVarUnder Macros with
    | some e => [{ loc := e.1.loc, message := nonTopmostMsg, fixits := [] }]
    | none =>
      [{ loc := fe.startLoc, message := missingGuardMsg,
         fixits := [FixItHint.insertion fe.startLoc
                      ("#ifndef " ++ cppVar ++ "\n#define " ++ cppVar ++ "\n\n"),
                    FixItHint.insertion fe.endLoc
                      (if chk.shouldSuggestEndifComment fileName then
                         "\n#endif  // " ++ cppVar ++ "\n"
                       else "\n#endif\n")] }]

/-- The reporter `checkGuardlessHeaders` (source lines 181–228) over the surviving file
map. -/
def checkGuardlessHeaders (sm : SourceMgr) (chk : Check)
    (Macros : List (MacroTok × MacroDir)) (Files : List (String × FileEntry)) :
    List Diag :=
  Files.flatMap (fun p => guardlessFor sm chk Macros p.1 p.2)

/-- One iteration of the `EndOfMainFile` macro loop (source lines 86–123).
Entries the oracle rejects are skipped.  For an accepted entry the file
entry of the definition location is resolved — the source dereferences it
unconditionally, so an unresolvable entry is the fatal branch (`none`).  The
file record under the canonical path is erased before the fix policy is
consulted; if the policy declines, processing of this entry stops.  Otherwise
the candidate and pairing maps are consulted through `operator[]`, whose
misses yield invalid default locations, and the naming check runs before the
endif-comment check, which receives the name the naming check returned. -/
def processEntry (sm : SourceMgr) (chk : Check)
    (Ifndefs : List (String × (Loc × Loc))) (EndIfs : List (Loc × Loc))
    (entry : MacroTok × MacroDir) (Files : List (String × FileEntry)) :
    Option (List (String × FileEntry) × List Diag) :=
  if !entry.2.usedForHeaderGuard then some (Files, [])
  else
    match sm.fileOf entry.2.defLoc with
    | none => none
    | some fe =>
      let fileName := cleanPath fe.name
      let Files1 := alistErase fileName Files
      if !chk.shouldFixHeaderGuard fileName then some (Files1, [])
      else
        let ipair := (alistLookup entry.1.name Ifndefs).getD (0, 0)
        let endIfLoc := (alistLookup ipair.1 EndIfs).getD 0
        let res := checkHeaderGuardDefinition chk ipair.2 entry.1.loc fileName entry.1.name
        let endifDiags :=
          if chk.shouldSuggestEndifComment fileName then
            checkEndifComment sm endIfLoc res.2
          else []
        some (Files1, res.1 ++ endifDiags)

/-- The `EndOfMainFile` macro loop over the recorded sequence, threading the
file map and accumulating diagnostics in order. -/
def processMacros (sm : SourceMgr) (chk : Check)
    (Ifndefs : List (String × (Loc × Loc))) (EndIfs : List (Loc × Loc)) :
    List (MacroTok × MacroDir) → List (String × FileEntry) →
    Option (List (String × FileEntry) × List Diag)
  | [], Files => some (Files, [])
  | e :: rest, Files =>
    (processEntry sm chk Ifndefs EndIfs e Files).bind fun q =>
      (processMacros sm chk Ifndefs EndIfs rest q.1).map fun q2 =>
        (q2.1, q.2 ++ q2.2)

/-- The handler `EndOfMainFile` (source lines 82–133): run the macro loop, then the
guardless-header check over the surviving records, and clear all state.  A
`none` result is the fatal branch (the null-file-entry dereference in the
loop); otherwise the result is the diagnostics in emission order together
with the cleared state. -/
def EndOfMainFile (sm : SourceMgr) (chk : Check) (st : PPState) :
    Option (List Diag × PPState) :=
  (processMacros sm chk st.Ifndefs st.EndIfs st.Macros st.Files).map fun q =>
    (q.2 ++ checkGuardlessHeaders sm chk st.Macros q.1, initState)

/-! ## Default policy hooks (source lines 247–255) -/

/-- Default `HeaderGuardCheck::shouldSuggestEndifComment`: `FileName.endswith(".h")`. -/
def shouldSuggestEndifCommentDefault (fileName : String) : Bool :=
  strEndsWith fileName ".h"

/-- Default `HeaderGuardCheck::shouldFixHeaderGuard`: always true. -/
def shouldFixHeaderGuardDefault (_fileName : String) : Bool := true

/-- Default `HeaderGuardCheck::shouldSuggestToAddHeaderGuard`: `FileName.endswith(".h")`. -/
def shouldSuggestToAddHeaderGuardDefault (fileName : String) : Bool :=
  strEndsWith fileName ".h"

/-- The count of missing-guard diagnostics the guardless reporter produces
from the records stored under one canonical path. -/
def missingGuardCountFor (sm : SourceMgr) (chk : Check)
    (Macros : List (MacroTok × MacroDir)) (Files : List (String × FileEntry))
    (k : String) : Nat :=
  ((Files.filter (fun p => decide (p.1 = k))).flatMap
      (fun p => guardlessFor sm chk Macros p.1 p.2)).countP
    (fun d => decide (d.message = missingGuardMsg))

/-- An event history "enters no files" when it has no file-change events. -/
def isFileChangedEvent : Event → Bool
  | .fileChanged _ _ _ => true
  | _ => false

/-- An event is an oracle-accepted (guard-flagged) macro definition. -/
def guardFlagged : Event → Bool
  | .macroDefined _ md => md.usedForHeaderGuard
  | _ => false

/-- A macro entry never drives the loop into the fatal branch: either the
oracle rejects it or its definition location resolves to a file entry. -/
def guardResolvable (sm : SourceMgr) (e : MacroTok × MacroDir) : Bool :=
  !e.2.usedForHeaderGuard || (sm.fileOf e.2.defLoc).isSome

/-! ## Concrete environments for evaluating the embedding -/

/-- Concrete source manager for the C1 witness. -/
def wC1sm : SourceMgr :=
  ⟨fun l => if l = 2 ∨ l = 5 then some ⟨"w1.h", 1, 9⟩ else none,
   fun _ _ => true, fun _ => []⟩

/-- Concrete check policies for the C1 witness; the fix policy declines, so
the witness exercises removal happening even when `shouldFixHeaderGuard`
returns false. -/
def wC1chk : Check := ⟨fun _ _ => "W1_H", fun _ => true, fun _ => false, fun _ => true⟩

/-- Concrete event history for the C1 witness: the file is entered, then its
guard macro is recorded. -/
def wC1evs : List Event :=
  [Event.fileChanged 2 FileChangeReason.enterFile CharacteristicKind.cUser,
   Event.macroDefined ⟨"W1_H", 5⟩ ⟨true, 5⟩]

/-- Concrete source manager for the C2 material. -/
def wC2sm : SourceMgr := ⟨fun _ => none, fun _ _ => true, fun _ => []⟩

/-- Concrete check policies for the C2 material. -/
def wC2chk : Check := ⟨fun _ _ => "A_H", fun _ => true, fun _ => true, fun _ => true⟩

/-- Concrete source manager for the C4 witness: location 5 resolves to the
header, location 7 carries the raw line `endif`. -/
def wC4sm : SourceMgr :=
  ⟨fun l => if l = 5 then some ⟨"sub/foo.h", 1, 9⟩ else none,
   fun _ _ => true,
   fun l => if l = 7 then "endif".data else []⟩

/-- Concrete check policies for the C4 witness. -/
def wC4chk : Check :=
  ⟨fun _ _ => "SUB_FOO_H", fun _ => true, fun _ => true, fun _ => true⟩

/-- Concrete source manager for the C5 material. -/
def wC5sm : SourceMgr :=
  ⟨fun l => if l = 5 then some ⟨"c5.h", 1, 9⟩ else none, fun _ _ => true, fun _ => []⟩

/-- Concrete check policies for the C5 material. -/
def wC5chk : Check := ⟨fun _ _ => "C5_H", fun _ => true, fun _ => true, fun _ => true⟩

/-- Concrete source manager for the C6 witness: two locations resolving to
two distinct raw spellings of the same canonical path. -/
def wC6sm : SourceMgr :=
  ⟨fun l =>
     if l = 10 then some ⟨"./x.h", 1, 9⟩
     else if l = 20 then some ⟨"a/../x.h", 1, 9⟩
     else none,
   fun _ _ => true, fun _ => []⟩

/-- Concrete check policies for the C6 witness. -/
def wC6chk : Check := ⟨fun _ _ => "X_H", fun _ => true, fun _ => true, fun _ => true⟩

/-- Concrete event history for the C6 witness: two include routes to the
same canonical path. -/
def wC6evs : List Event :=
  [Event.fileChanged 10 FileChangeReason.enterFile CharacteristicKind.cUser,
   Event.fileChanged 20 FileChangeReason.enterFile CharacteristicKind.cUser]

/-- Concrete source manager for the C7 material. -/
def wC7sm : SourceMgr :=
  ⟨fun l => if l = 10 then some ⟨"c7.h", 1, 9⟩ else none, fun _ _ => true, fun _ => []⟩

/-- Concrete check for the C7 material: the default policy hooks with a
fixed naming policy. -/
def wC7chk : Check :=
  ⟨fun _ _ => "C7_H", shouldSuggestEndifCommentDefault, shouldFixHeaderGuardDefault,
   shouldSuggestToAddHeaderGuardDefault⟩

/-- Concrete event history for the C7 witness: no file-change events and no
oracle-accepted macro definition. -/
def wC7evs : List Event :=
  [Event.macroDefined ⟨"M", 2⟩ ⟨false, 2⟩,
   Event.ifndefDirective 3 ⟨"M", 4⟩ false,
   Event.endifDirective 7 3]

/-- Concrete source manager for the C9 witness. -/
def wC9sm : SourceMgr :=
  ⟨fun l => if l = 5 then some ⟨"w9.h", 1, 9⟩ else none, fun _ _ => true, fun _ => []⟩

/-- Concrete check policies for the C9 witness. -/
def wC9chk : Check := ⟨fun _ _ => "W9_H", fun _ => true, fun _ => true, fun _ => true⟩

/-- Concrete event history for the C9 witness: one oracle-accepted guard
macro whose definition location resolves. -/
def wC9evs : List Event := [Event.macroDefined ⟨"W9_H", 5⟩ ⟨true, 5⟩]

/-! ## Lemmas: path canonicalization -/

/-! ## Lemmas: path canonicalization -/

theorem tailSplitAux_mem (l : List Char) :
    ∀ (acc : List Char) (pend : Bool), '/' ∉ acc →
      ∀ w ∈ tailSplitAux l acc pend, w ≠ [] ∧ '/' ∉ w := by
  induction l with
  | nil =>
    intro acc pend hacc w hw
    unfold tailSplitAux at hw
    by_cases h : acc.isEmpty
    · rw [if_pos h] at hw
      by_cases hp : pend
      · rw [if_pos hp] at hw
        rcases List.mem_singleton.mp hw with rfl
        exact ⟨by simp, by decide⟩
      · rw [if_neg hp] at hw
        exact absurd hw (by simp)
    · rw [if_neg h] at hw
      rcases List.mem_singleton.mp hw with rfl
      refine ⟨?_, ?_⟩
      · simp only [List.isEmpty_iff] at h
        simpa using h
      · simpa using hacc
  | cons c rest ih =>
    intro acc pend hacc w hw
    unfold tailSplitAux at hw
    by_cases hc : c = '/'
    · rw [if_pos hc] at hw
      by_cases h : acc.isEmpty
      · rw [if_pos h] at hw
        exact ih [] true (by simp) w hw
      · rw [if_neg h] at hw
        rcases List.mem_cons.mp hw with rfl | h1
        · refine ⟨?_, ?_⟩
          · simp only [List.isEmpty_iff] at h
            simpa using h
          · simpa using hacc
        · exact ih [] true (by simp) w h1
    · rw [if_neg hc] at hw
      refine ih (c :: acc) false ?_ w hw
      intro hmem
      rcases List.mem_cons.mp hmem with h1 | h1
      · exact hc h1.symm
      · exact hacc h1

theorem tailSplitAux_append (w : List Char) :
    ∀ (rest acc : List Char) (pend : Bool), '/' ∉ w →
      tailSplitAux (w ++ rest) acc pend =
        tailSplitAux rest (w.reverse ++ acc) (if w.isEmpty then pend else false) := by
  induction w with
  | nil => intro rest acc pend _; simp
  | cons c w' ih =>
    intro rest acc pend hw
    have hc : c ≠ '/' := fun h => hw (by simp [h])
    have hw' : '/' ∉ w' := fun h => hw (by simp [h])
    have h1 : tailSplitAux ((c :: w') ++ rest) acc pend =
        tailSplitAux (w' ++ rest) (c :: acc) false := by
      show tailSplitAux (c :: (w' ++ rest)) acc pend = _
      simp [tailSplitAux, hc]
    rw [h1, ih rest (c :: acc) false hw']
    simp

theorem tailSplitAux_sep_cons (l acc : List Char) (pend : Bool) (hne : acc ≠ []) :
    tailSplitAux ('/' :: l) acc pend = acc.reverse :: tailSplitAux l [] true := by
  simp [tailSplitAux, List.isEmpty_iff, hne]

theorem tailSplitAux_nil_acc (acc : List Char) (pend : Bool) (hne : acc ≠ []) :
    tailSplitAux [] acc pend = [acc.reverse] := by
  simp [tailSplitAux, List.isEmpty_iff, hne]

theorem tailSplitAux_join :
    ∀ (ys : List (List Char)) (pend : Bool), ys ≠ [] →
      (∀ w ∈ ys, w ≠ [] ∧ '/' ∉ w) →
      tailSplitAux (joinPath ys) [] pend = ys := by
  intro ys
  induction ys with
  | nil => intro pend h _; exact absurd rfl h
  | cons y ys' ih =>
    intro pend _ h
    have hy := h y (by simp)
    cases ys' with
    | nil =>
      show tailSplitAux (joinPath [y]) [] pend = [y]
      have hjy : joinPath [y] = y ++ [] := by simp [joinPath]
      rw [hjy, tailSplitAux_append y [] [] pend hy.2,
        tailSplitAux_nil_acc _ _ (by simpa using hy.1)]
      simp
    | cons y2 rest =>
      show tailSplitAux (y ++ '/' :: joinPath (y2 :: rest)) [] pend = y :: y2 :: rest
      rw [tailSplitAux_append y ('/' :: joinPath (y2 :: rest)) [] pend hy.2,
        tailSplitAux_sep_cons _ _ _ (by simpa using hy.1)]
      rw [ih true (by simp) (fun w hw => h w (by simp [hw]))]
      simp

theorem llvmComponents_relative (cs : List Char) (h : cs.head? ≠ some '/') :
    llvmComponents cs = tailSplitAux cs [] false := by
  cases cs with
  | nil => rfl
  | cons c rest =>
    have hc : c ≠ '/' := fun hEq => h (by simp [hEq])
    simp [llvmComponents, hc]

theorem joinPath_concat (as : List (List Char)) (b : List Char) :
    joinPath (as ++ [b]) = joinPath as ++ (if as.isEmpty then [] else ['/']) ++ b := by
  induction as with
  | nil => simp [joinPath]
  | cons a as' ih =>
    cases as' with
    | nil => simp [joinPath]
    | cons a2 as'' =>
      show joinPath (a :: ((a2 :: as'') ++ [b])) = _
      have h1 : joinPath (a :: ((a2 :: as'') ++ [b])) =
          a ++ '/' :: joinPath ((a2 :: as'') ++ [b]) := rfl
      rw [h1, ih]
      simp [joinPath]

theorem joinPath_ne_nil (cs : List (List Char)) (hne : cs ≠ [])
    (h : ∀ w ∈ cs, w ≠ []) : joinPath cs ≠ [] := by
  cases cs with
  | nil => exact absurd rfl hne
  | cons c cs' =>
    cases cs' with
    | nil => simpa [joinPath] using h c (by simp)
    | cons c2 rest =>
      show c ++ '/' :: joinPath (c2 :: rest) ≠ []
      simp

theorem joinPath_head (cs : List (List Char))
    (h : ∀ w ∈ cs, w ≠ [] ∧ '/' ∉ w) : (joinPath cs).head? ≠ some '/' := by
  cases cs with
  | nil => simp [joinPath]
  | cons c cs' =>
    have hc := h c (by simp)
    have hhead : (joinPath (c :: cs')).head? = c.head? := by
      cases cs' with
      | nil => rfl
      | cons c2 rest =>
        show (c ++ '/' :: joinPath (c2 :: rest)).head? = c.head?
        rw [List.head?_append]
        cases hcc : c with
        | nil => exact absurd hcc hc.1
        | cons a t => simp
    rw [hhead]
    cases hcc : c with
    | nil => exact absurd hcc hc.1
    | cons a t =>
      simp only [List.head?_cons, ne_eq, Option.some.injEq]
      intro hEq
      refine hc.2 ?_
      rw [hcc, ← hEq]
      simp

theorem joinPath_getLast (cs : List (List Char))
    (h : ∀ w ∈ cs, w ≠ [] ∧ '/' ∉ w) : (joinPath cs).getLast? ≠ some '/' := by
  induction cs with
  | nil => simp [joinPath]
  | cons c cs' ih =>
    cases cs' with
    | nil =>
      have hc := h c (by simp)
      show (joinPath [c]).getLast? ≠ some '/'
      intro hEq
      exact hc.2 (List.mem_of_getLast?_eq_some hEq)
    | cons c2 rest =>
      show (c ++ '/' :: joinPath (c2 :: rest)).getLast? ≠ some '/'
      rw [List.getLast?_append]
      have hJ : joinPath (c2 :: rest) ≠ [] :=
        joinPath_ne_nil _ (by simp) (fun w hw => (h w (by simp [hw])).1)
      have hJs : (joinPath (c2 :: rest)).getLast?.isSome := List.getLast?_isSome.mpr hJ
      obtain ⟨x, hx⟩ := Option.isSome_iff_exists.mp hJs
      have hcons : ('/' :: joinPath (c2 :: rest)).getLast? = some x := by
        show ((['/'] ++ joinPath (c2 :: rest))).getLast? = some x
        rw [List.getLast?_append, hx]
        rfl
      rw [hcons]
      have ihx := ih (fun w hw => h w (by simp [hw]))
      rw [hx] at ihx
      simpa using ihx

theorem lastSepIdx_eq_none (s : List Char) (h : '/' ∉ s) : lastSepIdx s = none := by
  induction s with
  | nil => rfl
  | cons c rest ih =>
    have hc : c ≠ '/' := fun hEq => h (by simp [hEq])
    have hr : '/' ∉ rest := fun hm => h (by simp [hm])
    simp [lastSepIdx, ih hr, hc]

theorem lastSepIdx_append (X b : List Char) (hb : '/' ∉ b) :
    lastSepIdx (X ++ '/' :: b) = some X.length := by
  induction X with
  | nil =>
    show lastSepIdx ('/' :: b) = some 0
    simp [lastSepIdx, lastSepIdx_eq_none b hb]
  | cons c X' ih =>
    show lastSepIdx (c :: (X' ++ '/' :: b)) = some (X'.length + 1)
    simp [lastSepIdx, ih]

theorem head?_ne_sep (s : List Char) (h : '/' ∉ s) : s.head? ≠ some '/' := by
  cases s with
  | nil => simp
  | cons c rest =>
    simp only [List.head?_cons, ne_eq, Option.some.injEq]
    intro hEq
    exact h (by simp [hEq])

theorem parentPath_no_sep (s : List Char) (_hne : s ≠ []) (hs : '/' ∉ s) :
    parentPath s = [] := by
  have hlast : s.getLast? ≠ some '/' := fun hEq => hs (List.mem_of_getLast?_eq_some hEq)
  have hnone : lastSepIdx s = none := lastSepIdx_eq_none s hs
  have hfp : filenamePos s = 0 := by simp [filenamePos, hlast, hnone]
  have hhead : s.head? ≠ some '/' := head?_ne_sep s hs
  have hroot : rootDirStart s = none := by simp [rootDirStart, hhead]
  have hend : parentPathEnd s = some 0 := by
    simp [parentPathEnd, hfp, hroot, sepSkipLoop]
  simp [parentPath, hend]

theorem parentPath_append (A b : List Char)
    (hA : A ≠ []) (hAhead : A.head? ≠ some '/') (hAlast : A.getLast? ≠ some '/')
    (hb : b ≠ []) (hbsep : '/' ∉ b) :
    parentPath (A ++ '/' :: b) = A := by
  have hbs : b.getLast?.isSome := List.getLast?_isSome.mpr hb
  obtain ⟨c, hc⟩ := Option.isSome_iff_exists.mp hbs
  have hcne : c ≠ '/' := fun hEq => hbsep (hEq ▸ List.mem_of_getLast?_eq_some hc)
  have hlast : (A ++ '/' :: b).getLast? = some c := by
    rw [List.getLast?_append]
    have h1 : ('/' :: b).getLast? = some c := by
      show ((['/'] ++ b)).getLast? = some c
      rw [List.getLast?_append, hc]
      rfl
    rw [h1]
    rfl
  have hlastne : (A ++ '/' :: b).getLast? ≠ some '/' := by
    rw [hlast]
    simpa using hcne
  have hAs : A.head?.isSome := by
    cases A with
    | nil => exact absurd rfl hA
    | cons a t => simp
  obtain ⟨a, ha⟩ := Option.isSome_iff_exists.mp hAs
  have hane : a ≠ '/' := fun hEq => hAhead (by rw [ha, hEq])
  have hhead : (A ++ '/' :: b).head? = some a := by
    rw [List.head?_append, ha]
    rfl
  have hh2 : ¬ (A ++ '/' :: b).head? = some '/' := by
    rw [hhead]
    simpa using hane
  have hsep : lastSepIdx (A ++ '/' :: b) = some A.length := lastSepIdx_append A b hbsep
  have hfp : filenamePos (A ++ '/' :: b) = A.length + 1 := by
    unfold filenamePos
    rw [if_neg hlastne, hsep]
    show (if A.length = 1 ∧ (A ++ '/' :: b).head? = some '/' then 0 else A.length + 1) =
      A.length + 1
    rw [if_neg]
    rintro ⟨-, h2⟩
    exact hh2 h2
  have hroot : rootDirStart (A ++ '/' :: b) = none := by
    unfold rootDirStart
    rw [if_neg (by rintro ⟨-, h2, -⟩; exact hh2 h2), if_neg hh2]
  have hAlen : (A ++ '/' :: b)[A.length]? = some '/' := by
    rw [List.getElem?_append_right (Nat.le_refl _)]
    simp
  obtain ⟨k, hk⟩ : ∃ k, A.length = k + 1 := by
    cases hA' : A.length with
    | zero => exact absurd (List.length_eq_zero.mp hA') hA
    | succ k => exact ⟨k, rfl⟩
  have hAk : (A ++ '/' :: b)[k]? = A.getLast? := by
    rw [List.getElem?_append_left (by omega), List.getLast?_eq_getElem?]
    congr 1
    omega
  have hloop : sepSkipLoop (A ++ '/' :: b) none (A.length + 1) = A.length := by
    simp only [sepSkipLoop]
    rw [if_pos ⟨by simp, hAlen⟩, hk]
    simp only [sepSkipLoop]
    rw [if_neg]
    rintro ⟨-, h2⟩
    rw [hAk] at h2
    exact hAlast h2
  have hend : parentPathEnd (A ++ '/' :: b) = some A.length := by
    simp only [parentPathEnd, hfp, hroot, hloop]
    simp
  unfold parentPath
  rw [hend]
  show (A ++ '/' :: b).take A.length = A
  exact List.take_left A ('/' :: b)

theorem take_parent_join (acc : List (List Char))
    (hacc : ∀ w ∈ acc, w ≠ [] ∧ '/' ∉ w) :
    (joinPath acc).take (parentPath (joinPath acc)).length = joinPath acc.dropLast := by
  rcases List.eq_nil_or_concat acc with rfl | ⟨as, b, hab⟩
  · decide
  · rw [List.concat_eq_append] at hab
    subst hab
    have hb := hacc b (by simp)
    have hmemas : ∀ w ∈ as, w ≠ [] ∧ '/' ∉ w := fun w hw => hacc w (by simp [hw])
    rw [joinPath_concat as b, List.dropLast_concat]
    by_cases has : as = []
    · subst has
      simp only [List.isEmpty_nil, if_pos rfl, List.nil_append]
      show b.take (parentPath b).length = joinPath []
      rw [parentPath_no_sep b hb.1 hb.2]
      simp [joinPath]
    · have hAne : joinPath as ≠ [] := joinPath_ne_nil as has (fun w hw => (hmemas w hw).1)
      rw [if_neg (by simpa [List.isEmpty_iff] using has)]
      have hshape : joinPath as ++ ['/'] ++ b = joinPath as ++ '/' :: b := by simp
      rw [hshape, parentPath_append (joinPath as) b hAne (joinPath_head as hmemas)
        (joinPath_getLast as hmemas) hb.1 hb.2]
      exact List.take_left (joinPath as) ('/' :: b)

theorem cleanFold_eq_join :
    ∀ (xs acc : List (List Char)),
      (∀ w ∈ xs, w ≠ [] ∧ '/' ∉ w) →
      (∀ w ∈ acc, w ≠ [] ∧ '/' ∉ w) →
      List.foldl cleanFoldStep (joinPath acc) xs = joinPath (List.foldl cleanStep acc xs) := by
  intro xs
  induction xs with
  | nil => intro acc _ _; rfl
  | cons x xs' ih =>
    intro acc hxs hacc
    have hx := hxs x (by simp)
    have hxs' : ∀ w ∈ xs', w ≠ [] ∧ '/' ∉ w := fun w hw => hxs w (by simp [hw])
    simp only [List.foldl_cons]
    by_cases h1 : x = ['.']
    · rw [show cleanFoldStep (joinPath acc) x = joinPath acc from by
        unfold cleanFoldStep; rw [if_pos h1]]
      rw [show cleanStep acc x = acc from by unfold cleanStep; rw [if_pos h1]]
      exact ih acc hxs' hacc
    · by_cases h2 : x = ['.', '.']
      · rw [show cleanFoldStep (joinPath acc) x = joinPath acc.dropLast from by
          unfold cleanFoldStep
          rw [if_neg h1, if_pos h2]
          exact take_parent_join acc hacc]
        rw [show cleanStep acc x = acc.dropLast from by
          unfold cleanStep; rw [if_neg h1, if_pos h2]]
        refine ih acc.dropLast hxs' ?_
        intro w hw
        exact hacc w (List.dropLast_sublist acc |>.mem hw)
      · rw [show cleanFoldStep (joinPath acc) x = joinPath (acc ++ [x]) from by
          unfold cleanFoldStep
          rw [if_neg h1, if_neg h2, joinPath_concat]
          by_cases hacc0 : acc = []
          · subst hacc0
            simp [joinPath]
          · have hne : joinPath acc ≠ [] :=
              joinPath_ne_nil acc hacc0 (fun w hw => (hacc w hw).1)
            rw [if_neg (by simpa [List.isEmpty_iff] using hne),
              if_neg (by simpa [List.isEmpty_iff] using hacc0)]]
        rw [show cleanStep acc x = acc ++ [x] from by
          unfold cleanStep; rw [if_neg h1, if_neg h2]]
        refine ih (acc ++ [x]) hxs' ?_
        intro w hw
        rcases List.mem_append.mp hw with h3 | h3
        · exact hacc w h3
        · rcases List.mem_singleton.mp h3 with rfl
          exact ⟨hx.1, hx.2⟩

theorem cleanStep_mem (xs : List (List Char))
    (hin : ∀ w ∈ xs, w ≠ [] ∧ '/' ∉ w) :
    ∀ acc : List (List Char),
      (∀ w ∈ acc, w ≠ [] ∧ '/' ∉ w ∧ w ≠ ['.'] ∧ w ≠ ['.', '.']) →
      ∀ w ∈ xs.foldl cleanStep acc,
        w ≠ [] ∧ '/' ∉ w ∧ w ≠ ['.'] ∧ w ≠ ['.', '.'] := by
  induction xs with
  | nil => intro acc hacc w hw; exact hacc w hw
  | cons x xs' ih =>
    intro acc hacc w hw
    have hx := hin x (by simp)
    have hin' : ∀ w ∈ xs', w ≠ [] ∧ '/' ∉ w := fun w hw => hin w (by simp [hw])
    simp only [List.foldl_cons] at hw
    by_cases h1 : x = ['.']
    · rw [show cleanStep acc x = acc from by unfold cleanStep; rw [if_pos h1]] at hw
      exact ih hin' acc hacc w hw
    · by_cases h2 : x = ['.', '.']
      · rw [show cleanStep acc x = acc.dropLast from by
          unfold cleanStep; rw [if_neg h1, if_pos h2]] at hw
        refine ih hin' acc.dropLast ?_ w hw
        intro w hw
        exact hacc w (List.dropLast_sublist acc |>.mem hw)
      · rw [show cleanStep acc x = acc ++ [x] from by
          unfold cleanStep; rw [if_neg h1, if_neg h2]] at hw
        refine ih hin' (acc ++ [x]) ?_ w hw
        intro w hw
        rcases List.mem_append.mp hw with h3 | h3
        · exact hacc w h3
        · rcases List.mem_singleton.mp h3 with rfl
          exact ⟨hx.1, hx.2, h1, h2⟩

theorem foldl_cleanStep_id :
    ∀ xs : List (List Char), (∀ w ∈ xs, w ≠ ['.'] ∧ w ≠ ['.', '.']) →
      ∀ acc : List (List Char), xs.foldl cleanStep acc = acc ++ xs := by
  intro xs
  induction xs with
  | nil => intro _ acc; simp
  | cons x xs' ih =>
    intro h acc
    have hx := h x (by simp)
    simp only [List.foldl_cons]
    rw [show cleanStep acc x = acc ++ [x] from by
      unfold cleanStep; rw [if_neg hx.1, if_neg hx.2]]
    rw [ih (fun w hw => h w (by simp [hw])) (acc ++ [x])]
    simp

/-- C8 (amended): `cleanPath` is a pure, total function; it drops `.`
components, resolves `..` against the previously emitted component (a `..`
with nothing to remove is dropped silently), and rejoins components with a
`/` separator; and it is idempotent on every relative path — every path
that does not begin with a separator.  On absolute paths the accumulator
doubles the root prefix (`/a/b` canonicalizes to `//a/b`), so the source is
not idempotent there; see the counterexample. -/
theorem C8_cleanPath_idempotent :
    (∀ p : String, p.data.head? ≠ some '/' → cleanPath (cleanPath p) = cleanPath p) ∧
    cleanPath "a/./b" = "a/b" ∧
    cleanPath "a/c/../b" = "a/b" ∧
    cleanPath "../a" = "a" ∧
    cleanPath "./x.h" = "x.h" := by
  refine ⟨?_, by decide, by decide, by decide, by decide⟩
  intro p hrel
  have hcomps : ∀ w ∈ llvmComponents p.data, w ≠ [] ∧ '/' ∉ w := by
    rw [llvmComponents_relative p.data hrel]
    exact fun w hw => tailSplitAux_mem p.data [] false (by simp) w hw
  have hys : ∀ w ∈ cleanComponents (llvmComponents p.data),
      w ≠ [] ∧ '/' ∉ w ∧ w ≠ ['.'] ∧ w ≠ ['.', '.'] :=
    cleanStep_mem (llvmComponents p.data) hcomps [] (by simp)
  set ys := cleanComponents (llvmComponents p.data) with hysdef
  have hys1 : ∀ w ∈ ys, w ≠ [] ∧ '/' ∉ w :=
    fun w hw => ⟨(hys w hw).1, (hys w hw).2.1⟩
  have hfold : cleanFold (llvmComponents p.data) = joinPath ys := by
    show List.foldl cleanFoldStep (joinPath []) (llvmComponents p.data) = joinPath ys
    exact cleanFold_eq_join (llvmComponents p.data) [] hcomps (by simp)
  have hcleanp : (cleanPath p).data = joinPath ys := hfold
  have hsplit : llvmComponents (joinPath ys) = ys := by
    by_cases hy0 : ys = []
    · rw [hy0]
      rfl
    · rw [llvmComponents_relative (joinPath ys) (joinPath_head ys hys1)]
      exact tailSplitAux_join ys false hy0 hys1
  have hfold2 : cleanFold ys = joinPath ys := by
    have h0 : List.foldl cleanFoldStep (joinPath []) ys =
        joinPath (List.foldl cleanStep [] ys) :=
      cleanFold_eq_join ys [] hys1 (by simp)
    have h1 : List.foldl cleanStep [] ys = [] ++ ys :=
      foldl_cleanStep_id ys (fun w hw => ⟨(hys w hw).2.2.1, (hys w hw).2.2.2⟩) []
    show List.foldl cleanFoldStep (joinPath []) ys = joinPath ys
    rw [h0, h1, List.nil_append]
  have hstep : cleanPath (cleanPath p) = ⟨cleanFold (llvmComponents (joinPath ys))⟩ := by
    show String.mk (cleanFold (llvmComponents (cleanPath p).data)) = _
    rw [hcleanp]
  rw [hstep, hsplit, hfold2]
  exact (String.ext hcleanp).symm

theorem C8_cleanPath_idempotent_witness :
    ("a/b/../c" : String).data.head? ≠ some '/' ∧
    cleanPath (cleanPath "a/b/../c") = cleanPath "a/b/../c" :=
  ⟨by decide, C8_cleanPath_idempotent.1 "a/b/../c" (by decide)⟩

/-- C8 counterexample: `cleanPath` is not idempotent on every path — the
accumulator prefixes each component after the first with `/`, so the root
component of an absolute path doubles: `/a/b` canonicalizes to `//a/b`,
which on a second pass parses as a `//a` network prefix plus root and
becomes `//a///b`. -/
theorem C8_counterexample :
    cleanPath "/a/b" = "//a/b" ∧
    cleanPath (cleanPath "/a/b") = "//a///b" ∧
    cleanPath (cleanPath "/a/b") ≠ cleanPath "/a/b" := by
  refine ⟨by decide, by decide, by decide⟩
/-! ## Lemmas: association-list maps -/

theorem alistLookup_eq_none {α β : Type} [DecidableEq α] (k : α) :
    ∀ m : List (α × β), alistLookup k m = none ↔ ∀ p ∈ m, p.1 ≠ k := by
  intro m
  induction m with
  | nil => simp [alistLookup]
  | cons p rest ih =>
    by_cases h : p.1 = k
    · simp [alistLookup, h]
    · simp only [alistLookup, if_neg h, ih, List.mem_cons]
      constructor
      · intro hall q hq
        rcases hq with rfl | hq
        · exact h
        · exact hall q hq
      · intro hall q hq
        exact hall q (Or.inr hq)

theorem keyCount_cons {α β : Type} [DecidableEq α] (k : α) (p : α × β)
    (rest : List (α × β)) :
    keyCount k (p :: rest) = (if p.1 = k then 1 else 0) + keyCount k rest := by
  by_cases h : p.1 = k
  · simp [keyCount, List.countP_cons, h, Nat.add_comm]
  · simp [keyCount, List.countP_cons, h]

theorem keyCount_eq_zero {α β : Type} [DecidableEq α] (k : α) (m : List (α × β)) :
    keyCount k m = 0 ↔ ∀ p ∈ m, p.1 ≠ k := by
  simp [keyCount, List.countP_eq_zero]

theorem keyCount_insert_self {α β : Type} [DecidableEq α] (k : α) (v : β) :
    ∀ m : List (α × β), keyCount k m ≤ 1 → keyCount k (alistInsert k v m) = 1 := by
  intro m
  induction m with
  | nil => intro _; simp [alistInsert, keyCount, List.countP_cons]
  | cons p rest ih =>
    intro hle
    rw [keyCount_cons] at hle
    by_cases h : p.1 = k
    · rw [if_pos h] at hle
      have h0 : keyCount k rest = 0 := by omega
      show keyCount k (if p.1 = k then (k, v) :: rest else _) = 1
      rw [if_pos h, keyCount_cons, if_pos rfl, h0]
    · rw [if_neg h] at hle
      show keyCount k (if p.1 = k then _ else p :: alistInsert k v rest) = 1
      rw [if_neg h, keyCount_cons, if_neg h, ih (by omega)]

theorem keyCount_insert_ne {α β : Type} [DecidableEq α] (k k' : α) (v : β)
    (hne : k' ≠ k) :
    ∀ m : List (α × β), keyCount k (alistInsert k' v m) = keyCount k m := by
  intro m
  induction m with
  | nil => simp [alistInsert, keyCount, List.countP_cons, hne]
  | cons p rest ih =>
    by_cases h : p.1 = k'
    · show keyCount k (if p.1 = k' then (k', v) :: rest else _) = _
      rw [if_pos h, keyCount_cons, keyCount_cons, h]
    · show keyCount k (if p.1 = k' then _ else p :: alistInsert k' v rest) = _
      rw [if_neg h, keyCount_cons, keyCount_cons, ih]

theorem WFkeys_insert {α β : Type} [DecidableEq α] (k : α) (v : β)
    (m : List (α × β)) (h : WFkeys m) : WFkeys (alistInsert k v m) := by
  intro k'
  by_cases hk : k' = k
  · subst hk
    rw [keyCount_insert_self k' v m (h k')]
  · rw [keyCount_insert_ne k' k v (Ne.symm hk) m]
    exact h k'

theorem alistErase_sublist {α β : Type} [DecidableEq α] (k : α) :
    ∀ m : List (α × β), List.Sublist (alistErase k m) m := by
  intro m
  induction m with
  | nil => simp [alistErase]
  | cons p rest ih =>
    by_cases h : p.1 = k
    · show List.Sublist (if p.1 = k then rest else _) (p :: rest)
      rw [if_pos h]
      exact (List.sublist_cons_self p rest)
    · show List.Sublist (if p.1 = k then _ else p :: alistErase k rest) (p :: rest)
      rw [if_neg h]
      exact ih.cons₂ p

theorem WFkeys_erase {α β : Type} [DecidableEq α] (k : α)
    (m : List (α × β)) (h : WFkeys m) : WFkeys (alistErase k m) := by
  intro k'
  exact le_trans ((alistErase_sublist k m).countP_le _) (h k')

theorem alistLookup_erase_self {α β : Type} [DecidableEq α] (k : α) :
    ∀ m : List (α × β), keyCount k m ≤ 1 → alistLookup k (alistErase k m) = none := by
  intro m
  induction m with
  | nil => intro _; simp [alistErase, alistLookup]
  | cons p rest ih =>
    intro hle
    rw [keyCount_cons] at hle
    by_cases h : p.1 = k
    · rw [if_pos h] at hle
      show alistLookup k (if p.1 = k then rest else _) = none
      rw [if_pos h]
      exact (alistLookup_eq_none k rest).mpr
        ((keyCount_eq_zero k rest).mp (by omega))
    · rw [if_neg h] at hle
      show alistLookup k (if p.1 = k then _ else p :: alistErase k rest) = none
      rw [if_neg h]
      show (if p.1 = k then some p.2 else alistLookup k (alistErase k rest)) = none
      rw [if_neg h]
      exact ih (by omega)

theorem alistLookup_erase_preserve {α β : Type} [DecidableEq α] (k k' : α)
    (m : List (α × β)) (h : alistLookup k m = none) :
    alistLookup k (alistErase k' m) = none := by
  rw [alistLookup_eq_none] at h ⊢
  intro p hp
  exact h p ((alistErase_sublist k' m).mem hp)

theorem alistLookup_isSome_iff {α β : Type} [DecidableEq α] (k : α) :
    ∀ m : List (α × β), (alistLookup k m).isSome = true ↔ 1 ≤ keyCount k m := by
  intro m
  induction m with
  | nil => simp [alistLookup, keyCount]
  | cons p rest ih =>
    rw [keyCount_cons]
    by_cases h : p.1 = k
    · simp [alistLookup, h]
    · show (if p.1 = k then some p.2 else alistLookup k rest).isSome = true ↔ _
      rw [if_neg h, if_neg h, ih]
      omega

/-! ## Lemmas: the event fold -/

theorem step_Files_cases (sm : SourceMgr) (st : PPState) (ev : Event) :
    (step sm st ev).Files = st.Files ∨
    ∃ l fe, ev = Event.fileChanged l FileChangeReason.enterFile CharacteristicKind.cUser ∧
      sm.fileOf l = some fe ∧
      (step sm st ev).Files = alistInsert (cleanPath fe.name) fe st.Files := by
  cases ev with
  | fileChanged l reason ftype =>
    show (if reason = FileChangeReason.enterFile ∧ ftype = CharacteristicKind.cUser
      then _ else st).Files = _ ∨ _
    by_cases h : reason = FileChangeReason.enterFile ∧ ftype = CharacteristicKind.cUser
    · rw [if_pos h]
      rcases h with ⟨rfl, rfl⟩
      cases hfe : sm.fileOf l with
      | none => left; rfl
      | some fe => right; exact ⟨l, fe, rfl, hfe, by simp [step, hfe]⟩
    · rw [if_neg h]; left; rfl
  | ifndefDirective l tok mdPresent =>
    left
    show (if mdPresent then st else _).Files = st.Files
    by_cases h : mdPresent
    · rw [if_pos h]
    · rw [if_neg h]
  | macroDefined tok md => left; rfl
  | endifDirective l ifLoc => left; rfl

theorem foldl_step_Files_WF (sm : SourceMgr) :
    ∀ (evs : List Event) (st : PPState), WFkeys st.Files →
      WFkeys ((evs.foldl (step sm) st).Files) := by
  intro evs
  induction evs with
  | nil => intro st h; exact h
  | cons ev evs' ih =>
    intro st h
    refine ih (step sm st ev) ?_
    rcases step_Files_cases sm st ev with heq | ⟨l, fe, _, _, heq⟩
    · rw [heq]; exact h
    · rw [heq]; exact WFkeys_insert _ _ _ h

theorem runEvents_Files_WF (sm : SourceMgr) (evs : List Event) :
    WFkeys ((runEvents sm evs).Files) :=
  foldl_step_Files_WF sm evs initState (by intro k; simp [initState, keyCount])

theorem foldl_step_Files_key_present (sm : SourceMgr) :
    ∀ (evs : List Event) (st : PPState) (k : String),
      1 ≤ keyCount k st.Files → WFkeys st.Files →
      1 ≤ keyCount k ((evs.foldl (step sm) st).Files) := by
  intro evs
  induction evs with
  | nil => intro st k h _; exact h
  | cons ev evs' ih =>
    intro st k h hwf
    have hwf' : WFkeys ((step sm st ev).Files) := by
      rcases step_Files_cases sm st ev with heq | ⟨l, fe, _, _, heq⟩
      · rw [heq]; exact hwf
      · rw [heq]; exact WFkeys_insert _ _ _ hwf
    refine ih (step sm st ev) k ?_ hwf'
    rcases step_Files_cases sm st ev with heq | ⟨l, fe, _, _, heq⟩
    · rw [heq]; exact h
    · rw [heq]
      by_cases hk : cleanPath fe.name = k
      · subst hk
        rw [keyCount_insert_self _ _ _ (hwf _)]
      · rw [keyCount_insert_ne _ _ _ hk]
        exact h

theorem runEvents_key_present (sm : SourceMgr) (evs : List Event)
    (l : Loc) (fe : FileEntry)
    (hev : Event.fileChanged l FileChangeReason.enterFile CharacteristicKind.cUser ∈ evs)
    (hfe : sm.fileOf l = some fe) :
    keyCount (cleanPath fe.name) ((runEvents sm evs).Files) = 1 := by
  rcases List.append_of_mem hev with ⟨s, t, rfl⟩
  have hle := runEvents_Files_WF sm (s ++ Event.fileChanged l .enterFile .cUser :: t) (cleanPath fe.name)
  refine Nat.le_antisymm hle ?_
  show 1 ≤ keyCount (cleanPath fe.name)
    (((s ++ Event.fileChanged l .enterFile .cUser :: t).foldl (step sm) initState).Files)
  rw [List.foldl_append]
  show 1 ≤ keyCount (cleanPath fe.name)
    ((List.foldl (step sm) (step sm (s.foldl (step sm) initState) (Event.fileChanged l .enterFile .cUser)) t).Files)
  have hwfS : WFkeys ((s.foldl (step sm) initState).Files) :=
    foldl_step_Files_WF sm s initState (by intro k; simp [initState, keyCount])
  set stS := s.foldl (step sm) initState with hstS
  have hstep : (step sm stS (Event.fileChanged l .enterFile .cUser)).Files =
      alistInsert (cleanPath fe.name) fe stS.Files := by
    simp [step, hfe]
  have hwf1 : WFkeys ((step sm stS (Event.fileChanged l .enterFile .cUser)).Files) := by
    rw [hstep]; exact WFkeys_insert _ _ _ hwfS
  refine foldl_step_Files_key_present sm t _ _ ?_ hwf1
  rw [hstep, keyCount_insert_self _ _ _ (hwfS _)]

theorem foldl_step_Macros_subset (sm : SourceMgr) :
    ∀ (evs : List Event) (st : PPState) (e : MacroTok × MacroDir),
      e ∈ ((evs.foldl (step sm) st).Macros) →
      e ∈ st.Macros ∨ Event.macroDefined e.1 e.2 ∈ evs := by
  intro evs
  induction evs with
  | nil => intro st e h; exact Or.inl h
  | cons ev evs' ih =>
    intro st e h
    rcases ih (step sm st ev) e h with h1 | h1
    · cases ev with
      | fileChanged l reason ftype =>
        left
        by_cases hc : reason = FileChangeReason.enterFile ∧ ftype = CharacteristicKind.cUser
        · have : (step sm st (Event.fileChanged l reason ftype)).Macros = st.Macros := by
            show (if reason = FileChangeReason.enterFile ∧ ftype = CharacteristicKind.cUser
              then _ else st).Macros = _
            rw [if_pos hc]
            cases sm.fileOf l <;> rfl
          rwa [this] at h1
        · have : (step sm st (Event.fileChanged l reason ftype)).Macros = st.Macros := by
            show (if reason = FileChangeReason.enterFile ∧ ftype = CharacteristicKind.cUser
              then _ else st).Macros = _
            rw [if_neg hc]
          rwa [this] at h1
      | ifndefDirective l tok mdPresent =>
        left
        have : (step sm st (Event.ifndefDirective l tok mdPresent)).Macros = st.Macros := by
          show (if mdPresent then st else _).Macros = _
          by_cases h : mdPresent
          · rw [if_pos h]
          · rw [if_neg h]
        rwa [this] at h1
      | macroDefined tok md =>
        have : (step sm st (Event.macroDefined tok md)).Macros = st.Macros ++ [(tok, md)] := rfl
        rw [this] at h1
        rcases List.mem_append.mp h1 with h2 | h2
        · exact Or.inl h2
        · right
          rcases List.mem_singleton.mp h2 with rfl
          simp
      | endifDirective l ifLoc => exact Or.inl h1
    · right
      exact List.mem_cons_of_mem ev h1

theorem no_fileChanged_Files_empty (sm : SourceMgr) :
    ∀ (evs : List Event) (st : PPState),
      evs.all (fun e => !isFileChangedEvent e) = true →
      ((evs.foldl (step sm) st).Files) = st.Files := by
  intro evs
  induction evs with
  | nil => intro st _; rfl
  | cons ev evs' ih =>
    intro st hall
    rw [List.all_cons, Bool.and_eq_true] at hall
    have hstep : (step sm st ev).Files = st.Files := by
      cases ev with
      | fileChanged l reason ftype => simp [isFileChangedEvent] at hall
      | ifndefDirective l tok mdPresent =>
        show (if mdPresent then st else _).Files = _
        by_cases h : mdPresent
        · rw [if_pos h]
        · rw [if_neg h]
      | macroDefined tok md => rfl
      | endifDirective l ifLoc => rfl
    rw [List.foldl_cons, ih (step sm st ev) hall.2, hstep]

/-! ## Lemmas: the reconciliation loop -/

theorem processEntry_skip (sm : SourceMgr) (chk : Check)
    (Ifndefs : List (String × (Loc × Loc))) (EndIfs : List (Loc × Loc))
    (e : MacroTok × MacroDir) (Files : List (String × FileEntry))
    (h : e.2.usedForHeaderGuard = false) :
    processEntry sm chk Ifndefs EndIfs e Files = some (Files, []) := by
  simp [processEntry, h]

theorem processEntry_fatal (sm : SourceMgr) (chk : Check)
    (Ifndefs : List (String × (Loc × Loc))) (EndIfs : List (Loc × Loc))
    (e : MacroTok × MacroDir) (Files : List (String × FileEntry))
    (h : e.2.usedForHeaderGuard = true) (hfe : sm.fileOf e.2.defLoc = none) :
    processEntry sm chk Ifndefs EndIfs e Files = none := by
  simp [processEntry, h, hfe]

theorem processEntry_nofix (sm : SourceMgr) (chk : Check)
    (Ifndefs : List (String × (Loc × Loc))) (EndIfs : List (Loc × Loc))
    (e : MacroTok × MacroDir) (Files : List (String × FileEntry)) (fe : FileEntry)
    (h : e.2.usedForHeaderGuard = true) (hfe : sm.fileOf e.2.defLoc = some fe)
    (hfix : chk.shouldFixHeaderGuard (cleanPath fe.name) = false) :
    processEntry sm chk Ifndefs EndIfs e Files =
      some (alistErase (cleanPath fe.name) Files, []) := by
  simp [processEntry, h, hfe, hfix]

theorem processEntry_fix (sm : SourceMgr) (chk : Check)
    (Ifndefs : List (String × (Loc × Loc))) (EndIfs : List (Loc × Loc))
    (e : MacroTok × MacroDir) (Files : List (String × FileEntry)) (fe : FileEntry)
    (h : e.2.usedForHeaderGuard = true) (hfe : sm.fileOf e.2.defLoc = some fe)
    (hfix : chk.shouldFixHeaderGuard (cleanPath fe.name) = true) :
    processEntry sm chk Ifndefs EndIfs e Files =
      some (alistErase (cleanPath fe.name) Files,
        (checkHeaderGuardDefinition chk
            ((alistLookup e.1.name Ifndefs).getD (0, 0)).2 e.1.loc
            (cleanPath fe.name) e.1.name).1 ++
          (if chk.shouldSuggestEndifComment (cleanPath fe.name) then
            checkEndifComment sm
              ((alistLookup ((alistLookup e.1.name Ifndefs).getD (0, 0)).1 EndIfs).getD 0)
              (checkHeaderGuardDefinition chk
                ((alistLookup e.1.name Ifndefs).getD (0, 0)).2 e.1.loc
                (cleanPath fe.name) e.1.name).2
          else [])) := by
  simp [processEntry, h, hfe, hfix]

theorem processEntry_files_cases (sm : SourceMgr) (chk : Check)
    (Ifndefs : List (String × (Loc × Loc))) (EndIfs : List (Loc × Loc))
    (e : MacroTok × MacroDir) (Files F1 : List (String × FileEntry)) (ds : List Diag)
    (h : processEntry sm chk Ifndefs EndIfs e Files = some (F1, ds)) :
    F1 = Files ∨ ∃ k : String, F1 = alistErase k Files := by
  cases hg : e.2.usedForHeaderGuard with
  | false =>
    rw [processEntry_skip sm chk Ifndefs EndIfs e Files hg] at h
    left
    exact (congrArg Prod.fst (Option.some.inj h)).symm
  | true =>
    cases hfe : sm.fileOf e.2.defLoc with
    | none =>
      rw [processEntry_fatal sm chk Ifndefs EndIfs e Files hg hfe] at h
      exact absurd h (by simp)
    | some fe =>
      right
      refine ⟨cleanPath fe.name, ?_⟩
      cases hfix : chk.shouldFixHeaderGuard (cleanPath fe.name) with
      | false =>
        rw [processEntry_nofix sm chk Ifndefs EndIfs e Files fe hg hfe hfix] at h
        exact (congrArg Prod.fst (Option.some.inj h)).symm
      | true =>
        rw [processEntry_fix sm chk Ifndefs EndIfs e Files fe hg hfe hfix] at h
        exact (congrArg Prod.fst (Option.some.inj h)).symm

theorem checkHeaderGuardDefinition_eq (chk : Check) (ifndefLoc defineLoc : Loc)
    (fileName cur : String) :
    checkHeaderGuardDefinition chk ifndefLoc defineLoc fileName cur =
      if locValid ifndefLoc ∧ cur ≠ chk.getHeaderGuard fileName cur ∧
          cur ≠ chk.getHeaderGuard fileName cur ++ "_" then
        ([{ loc := ifndefLoc, message := nonConformingMsg,
            fixits := [FixItHint.replacementToken ifndefLoc
                         (ifndefLoc + cur.length) (chk.getHeaderGuard fileName cur),
                       FixItHint.replacementToken defineLoc
                         (defineLoc + cur.length) (chk.getHeaderGuard fileName cur)] }],
         chk.getHeaderGuard fileName cur)
      else ([], cur) := rfl

theorem checkEndifComment_eq (sm : SourceMgr) (endIf : Loc) (guardName : String) :
    checkEndifComment sm endIf guardName =
      if locValid endIf ∧
          strEndsWith ⟨rawLine sm endIf⟩ ("// " ++ guardName) = false ∧
          strEndsWith ⟨rawLine sm endIf⟩ ("/* " ++ guardName ++ " */") = false then
        [{ loc := endIf, message := endifCommentMsg,
           fixits := [FixItHint.replacementChar endIf
                        (endIf + (rawLine sm endIf).length)
                        ("endif  // " ++ guardName)] }]
      else [] := rfl

theorem checkHeaderGuardDefinition_msgs (chk : Check) (ifndefLoc defineLoc : Loc)
    (fileName cur : String) :
    ∀ d ∈ (checkHeaderGuardDefinition chk ifndefLoc defineLoc fileName cur).1,
      d.message = nonConformingMsg := by
  intro d hd
  rw [checkHeaderGuardDefinition_eq] at hd
  split at hd
  · rcases List.mem_singleton.mp hd with rfl
    rfl
  · exact absurd hd (by simp)

theorem checkEndifComment_msgs (sm : SourceMgr) (endIf : Loc) (guardName : String) :
    ∀ d ∈ checkEndifComment sm endIf guardName, d.message = endifCommentMsg := by
  intro d hd
  rw [checkEndifComment_eq] at hd
  split at hd
  · rcases List.mem_singleton.mp hd with rfl
    rfl
  · exact absurd hd (by simp)

theorem processEntry_msgs (sm : SourceMgr) (chk : Check)
    (Ifndefs : List (String × (Loc × Loc))) (EndIfs : List (Loc × Loc))
    (e : MacroTok × MacroDir) (Files F1 : List (String × FileEntry)) (ds : List Diag)
    (h : processEntry sm chk Ifndefs EndIfs e Files = some (F1, ds)) :
    ∀ d ∈ ds, d.message = nonConformingMsg ∨ d.message = endifCommentMsg := by
  intro d hd
  cases hg : e.2.usedForHeaderGuard with
  | false =>
    rw [processEntry_skip sm chk Ifndefs EndIfs e Files hg] at h
    have hds : ([] : List Diag) = ds := congrArg Prod.snd (Option.some.inj h)
    rw [← hds] at hd
    exact absurd hd (by simp)
  | true =>
    cases hfe : sm.fileOf e.2.defLoc with
    | none =>
      rw [processEntry_fatal sm chk Ifndefs EndIfs e Files hg hfe] at h
      exact absurd h (by simp)
    | some fe =>
      cases hfix : chk.shouldFixHeaderGuard (cleanPath fe.name) with
      | false =>
        rw [processEntry_nofix sm chk Ifndefs EndIfs e Files fe hg hfe hfix] at h
        have hds : ([] : List Diag) = ds := congrArg Prod.snd (Option.some.inj h)
        rw [← hds] at hd
        exact absurd hd (by simp)
      | true =>
        rw [processEntry_fix sm chk Ifndefs EndIfs e Files fe hg hfe hfix] at h
        have hds : ((checkHeaderGuardDefinition chk
            ((alistLookup e.1.name Ifndefs).getD (0, 0)).2 e.1.loc
            (cleanPath fe.name) e.1.name).1 ++
          (if chk.shouldSuggestEndifComment (cleanPath fe.name) then
            checkEndifComment sm
              ((alistLookup ((alistLookup e.1.name Ifndefs).getD (0, 0)).1 EndIfs).getD 0)
              (checkHeaderGuardDefinition chk
                ((alistLookup e.1.name Ifndefs).getD (0, 0)).2 e.1.loc
                (cleanPath fe.name) e.1.name).2
          else [])) = ds := congrArg Prod.snd (Option.some.inj h)
        rw [← hds] at hd
        rcases List.mem_append.mp hd with h1 | h1
        · exact Or.inl (checkHeaderGuardDefinition_msgs chk _ _ _ _ d h1)
        · right
          split at h1
          · exact checkEndifComment_msgs sm _ _ d h1
          · exact absurd h1 (by simp)

theorem processMacros_cons (sm : SourceMgr) (chk : Check)
    (Ifndefs : List (String × (Loc × Loc))) (EndIfs : List (Loc × Loc))
    (e : MacroTok × MacroDir) (rest : List (MacroTok × MacroDir))
    (Files F1 : List (String × FileEntry)) (ds : List Diag)
    (h : processEntry sm chk Ifndefs EndIfs e Files = some (F1, ds)) :
    processMacros sm chk Ifndefs EndIfs (e :: rest) Files =
      Option.map (fun q => (q.1, ds ++ q.2))
        (processMacros sm chk Ifndefs EndIfs rest F1) := by
  simp [processMacros, h]

theorem processMacros_preserve_absent (sm : SourceMgr) (chk : Check)
    (Ifndefs : List (String × (Loc × Loc))) (EndIfs : List (Loc × Loc)) (k : String) :
    ∀ (ms : List (MacroTok × MacroDir)) (Files F2 : List (String × FileEntry))
      (ds : List Diag),
      alistLookup k Files = none →
      processMacros sm chk Ifndefs EndIfs ms Files = some (F2, ds) →
      alistLookup k F2 = none := by
  intro ms
  induction ms with
  | nil =>
    intro Files F2 ds habs h
    have h2 : (Files, ([] : List Diag)) = (F2, ds) := Option.some.inj h
    have hF : Files = F2 := congrArg Prod.fst h2
    rw [← hF]
    exact habs
  | cons e rest ih =>
    intro Files F2 ds habs h
    cases he : processEntry sm chk Ifndefs EndIfs e Files with
    | none => rw [processMacros, he] at h; exact absurd h (by simp)
    | some q =>
      rw [processMacros, he, Option.some_bind] at h
      cases hrest : processMacros sm chk Ifndefs EndIfs rest q.1 with
      | none => rw [hrest] at h; exact absurd h (by simp)
      | some q2 =>
        rw [hrest, Option.map_some'] at h
        have h2 : (q2.1, q.2 ++ q2.2) = (F2, ds) := Option.some.inj h
        have hF : q2.1 = F2 := congrArg Prod.fst h2
        rw [← hF]
        have habs1 : alistLookup k q.1 = none := by
          rcases processEntry_files_cases sm chk Ifndefs EndIfs e Files q.1 q.2
              (by rw [he]) with heq | ⟨k', heq⟩
          · rw [heq]; exact habs
          · rw [heq]; exact alistLookup_erase_preserve k k' Files habs
        exact ih q.1 q2.1 q2.2 habs1 hrest

theorem processMacros_WF (sm : SourceMgr) (chk : Check)
    (Ifndefs : List (String × (Loc × Loc))) (EndIfs : List (Loc × Loc)) :
    ∀ (ms : List (MacroTok × MacroDir)) (Files F2 : List (String × FileEntry))
      (ds : List Diag),
      WFkeys Files →
      processMacros sm chk Ifndefs EndIfs ms Files = some (F2, ds) →
      WFkeys F2 := by
  intro ms
  induction ms with
  | nil =>
    intro Files F2 ds hwf h
    have h2 : (Files, ([] : List Diag)) = (F2, ds) := Option.some.inj h
    have hF : Files = F2 := congrArg Prod.fst h2
    rw [← hF]
    exact hwf
  | cons e rest ih =>
    intro Files F2 ds hwf h
    cases he : processEntry sm chk Ifndefs EndIfs e Files with
    | none => rw [processMacros, he] at h; exact absurd h (by simp)
    | some q =>
      rw [processMacros, he, Option.some_bind] at h
      cases hrest : processMacros sm chk Ifndefs EndIfs rest q.1 with
      | none => rw [hrest] at h; exact absurd h (by simp)
      | some q2 =>
        rw [hrest, Option.map_some'] at h
        have h2 : (q2.1, q.2 ++ q2.2) = (F2, ds) := Option.some.inj h
        have hF : q2.1 = F2 := congrArg Prod.fst h2
        rw [← hF]
        have hwf1 : WFkeys q.1 := by
          rcases processEntry_files_cases sm chk Ifndefs EndIfs e Files q.1 q.2
              (by rw [he]) with heq | ⟨k', heq⟩
          · rw [heq]; exact hwf
          · rw [heq]; exact WFkeys_erase k' Files hwf
        exact ih q.1 q2.1 q2.2 hwf1 hrest

theorem processMacros_erases (sm : SourceMgr) (chk : Check)
    (Ifndefs : List (String × (Loc × Loc))) (EndIfs : List (Loc × Loc)) :
    ∀ (ms : List (MacroTok × MacroDir)) (e : MacroTok × MacroDir) (fe : FileEntry)
      (Files F2 : List (String × FileEntry)) (ds : List Diag),
      e ∈ ms → e.2.usedForHeaderGuard = true →
      sm.fileOf e.2.defLoc = some fe →
      WFkeys Files →
      processMacros sm chk Ifndefs EndIfs ms Files = some (F2, ds) →
      alistLookup (cleanPath fe.name) F2 = none := by
  intro ms
  induction ms with
  | nil => intro e fe Files F2 ds hmem; exact absurd hmem (by simp)
  | cons e0 rest ih =>
    intro e fe Files F2 ds hmem hg hfe hwf h
    cases he : processEntry sm chk Ifndefs EndIfs e0 Files with
    | none => rw [processMacros, he] at h; exact absurd h (by simp)
    | some q =>
      rw [processMacros, he, Option.some_bind] at h
      cases hrest : processMacros sm chk Ifndefs EndIfs rest q.1 with
      | none => rw [hrest] at h; exact absurd h (by simp)
      | some q2 =>
        rw [hrest, Option.map_some'] at h
        have h2 : (q2.1, q.2 ++ q2.2) = (F2, ds) := Option.some.inj h
        have hF : q2.1 = F2 := congrArg Prod.fst h2
        rw [← hF]
        have hwf1 : WFkeys q.1 := by
          rcases processEntry_files_cases sm chk Ifndefs EndIfs e0 Files q.1 q.2
              (by rw [he]) with heq | ⟨k', heq⟩
          · rw [heq]; exact hwf
          · rw [heq]; exact WFkeys_erase k' Files hwf
        rcases List.mem_cons.mp hmem with rfl | hmem'
        · -- the head entry is the guard entry: its key is erased here and
          -- stays absent through the rest of the loop
          have hq1 : q.1 = alistErase (cleanPath fe.name) Files := by
            have := processEntry_fix sm chk Ifndefs EndIfs e Files fe hg hfe
            cases hfix : chk.shouldFixHeaderGuard (cleanPath fe.name) with
            | false =>
              rw [processEntry_nofix sm chk Ifndefs EndIfs e Files fe hg hfe hfix] at he
              have h3 := Option.some.inj he.symm
              exact congrArg Prod.fst h3
            | true =>
              rw [processEntry_fix sm chk Ifndefs EndIfs e Files fe hg hfe hfix] at he
              have h3 := Option.some.inj he.symm
              exact congrArg Prod.fst h3
          have habs : alistLookup (cleanPath fe.name) q.1 = none := by
            rw [hq1]
            exact alistLookup_erase_self _ Files (hwf _)
          exact processMacros_preserve_absent sm chk Ifndefs EndIfs _ rest q.1 q2.1 q2.2
            habs hrest
        · exact ih e fe q.1 q2.1 q2.2 hmem' hg hfe hwf1 hrest

theorem processMacros_all_skip (sm : SourceMgr) (chk : Check)
    (Ifndefs : List (String × (Loc × Loc))) (EndIfs : List (Loc × Loc)) :
    ∀ (ms : List (MacroTok × MacroDir)) (Files : List (String × FileEntry)),
      (∀ e ∈ ms, e.2.usedForHeaderGuard = false) →
      processMacros sm chk Ifndefs EndIfs ms Files = some (Files, []) := by
  intro ms
  induction ms with
  | nil => intro Files _; rfl
  | cons e rest ih =>
    intro Files hall
    rw [processMacros,
      processEntry_skip sm chk Ifndefs EndIfs e Files (hall e (by simp)),
      Option.some_bind, ih Files (fun e he => hall e (by simp [he]))]
    rfl

theorem processMacros_isSome (sm : SourceMgr) (chk : Check)
    (Ifndefs : List (String × (Loc × Loc))) (EndIfs : List (Loc × Loc)) :
    ∀ (ms : List (MacroTok × MacroDir)) (Files : List (String × FileEntry)),
      ms.all (guardResolvable sm) = true →
      (processMacros sm chk Ifndefs EndIfs ms Files).isSome = true := by
  intro ms
  induction ms with
  | nil => intro Files _; rfl
  | cons e rest ih =>
    intro Files hall
    rw [List.all_cons, Bool.and_eq_true] at hall
    have hres := hall.1
    rw [processMacros]
    cases hg : e.2.usedForHeaderGuard with
    | false =>
      rw [processEntry_skip sm chk Ifndefs EndIfs e Files hg, Option.some_bind]
      cases hrest : processMacros sm chk Ifndefs EndIfs rest Files with
      | none =>
        have hcontra := ih Files hall.2
        rw [hrest] at hcontra
        exact absurd hcontra (by simp)
      | some q => simp
    | true =>
      unfold guardResolvable at hres
      rw [hg] at hres
      simp only [Bool.not_true, Bool.false_or] at hres
      cases hfe : sm.fileOf e.2.defLoc with
      | none => rw [hfe] at hres; exact absurd hres (by simp)
      | some fe =>
        cases hfix : chk.shouldFixHeaderGuard (cleanPath fe.name) with
        | false =>
          rw [processEntry_nofix sm chk Ifndefs EndIfs e Files fe hg hfe hfix,
            Option.some_bind]
          cases hrest : processMacros sm chk Ifndefs EndIfs rest
              (alistErase (cleanPath fe.name) Files) with
          | none =>
            have := ih (alistErase (cleanPath fe.name) Files) hall.2
            rw [hrest] at this
            exact absurd this (by simp)
          | some q => simp
        | true =>
          rw [processEntry_fix sm chk Ifndefs EndIfs e Files fe hg hfe hfix,
            Option.some_bind]
          cases hrest : processMacros sm chk Ifndefs EndIfs rest
              (alistErase (cleanPath fe.name) Files) with
          | none =>
            have := ih (alistErase (cleanPath fe.name) Files) hall.2
            rw [hrest] at this
            exact absurd this (by simp)
          | some q => simp

/-! ## Lemmas: the guardless reporter -/

theorem guardlessFor_eq_found (sm : SourceMgr) (chk : Check)
    (Macros : List (MacroTok × MacroDir)) (fileName : String) (fe : FileEntry)
    (e : MacroTok × MacroDir)
    (haccept : chk.shouldSuggestToAddHeaderGuard fileName = true)
    (hvalid : locValid fe.startLoc = true)
    (hfind : findGuardMacro sm fe.startLoc (chk.getHeaderGuard fileName "")
      (chk.getHeaderGuard fileName "" ++ "_") Macros = some e) :
    guardlessFor sm chk Macros fileName fe =
      [{ loc := e.1.loc, message := nonTopmostMsg, fixits := [] }] := by
  unfold guardlessFor
  rw [haccept, hvalid]
  simp only [Bool.not_true, Bool.false_eq_true, if_false]
  rw [hfind]

theorem guardlessFor_eq_missing (sm : SourceMgr) (chk : Check)
    (Macros : List (MacroTok × MacroDir)) (fileName : String) (fe : FileEntry)
    (haccept : chk.shouldSuggestToAddHeaderGuard fileName = true)
    (hvalid : locValid fe.startLoc = true)
    (hfind : findGuardMacro sm fe.startLoc (chk.getHeaderGuard fileName "")
      (chk.getHeaderGuard fileName "" ++ "_") Macros = none) :
    guardlessFor sm chk Macros fileName fe =
      [{ loc := fe.startLoc, message := missingGuardMsg,
         fixits := [FixItHint.insertion fe.startLoc
                      ("#ifndef " ++ chk.getHeaderGuard fileName "" ++ "\n#define " ++
                        chk.getHeaderGuard fileName "" ++ "\n\n"),
                    FixItHint.insertion fe.endLoc
                      (if chk.shouldSuggestEndifComment fileName then
                         "\n#endif  // " ++ chk.getHeaderGuard fileName "" ++ "\n"
                       else "\n#endif\n")] }] := by
  unfold guardlessFor
  rw [haccept, hvalid]
  simp only [Bool.not_true, Bool.false_eq_true, if_false]
  rw [hfind]

theorem guardlessFor_skip_accept (sm : SourceMgr) (chk : Check)
    (Macros : List (MacroTok × MacroDir)) (fileName : String) (fe : FileEntry)
    (h : chk.shouldSuggestToAddHeaderGuard fileName = false) :
    guardlessFor sm chk Macros fileName fe = [] := by
  unfold guardlessFor
  rw [h]
  rfl

theorem guardlessFor_skip_invalid (sm : SourceMgr) (chk : Check)
    (Macros : List (MacroTok × MacroDir)) (fileName : String) (fe : FileEntry)
    (haccept : chk.shouldSuggestToAddHeaderGuard fileName = true)
    (h : locValid fe.startLoc = false) :
    guardlessFor sm chk Macros fileName fe = [] := by
  unfold guardlessFor
  rw [haccept, h]
  rfl

theorem guardlessFor_length_le_one (sm : SourceMgr) (chk : Check)
    (Macros : List (MacroTok × MacroDir)) (fileName : String) (fe : FileEntry) :
    (guardlessFor sm chk Macros fileName fe).length ≤ 1 := by
  cases hacc : chk.shouldSuggestToAddHeaderGuard fileName with
  | false => rw [guardlessFor_skip_accept sm chk Macros fileName fe hacc]; simp
  | true =>
    cases hval : locValid fe.startLoc with
    | false => rw [guardlessFor_skip_invalid sm chk Macros fileName fe hacc hval]; simp
    | true =>
      cases hfind : findGuardMacro sm fe.startLoc (chk.getHeaderGuard fileName "")
          (chk.getHeaderGuard fileName "" ++ "_") Macros with
      | none =>
        rw [guardlessFor_eq_missing sm chk Macros fileName fe hacc hval hfind]
        simp
      | some e =>
        rw [guardlessFor_eq_found sm chk Macros fileName fe e hacc hval hfind]
        simp

theorem processMacros_msgs (sm : SourceMgr) (chk : Check)
    (Ifndefs : List (String × (Loc × Loc))) (EndIfs : List (Loc × Loc)) :
    ∀ (ms : List (MacroTok × MacroDir)) (Files F2 : List (String × FileEntry))
      (ds : List Diag),
      processMacros sm chk Ifndefs EndIfs ms Files = some (F2, ds) →
      ∀ d ∈ ds, d.message = nonConformingMsg ∨ d.message = endifCommentMsg := by
  intro ms
  induction ms with
  | nil =>
    intro Files F2 ds h d hd
    have h2 : (Files, ([] : List Diag)) = (F2, ds) := Option.some.inj h
    have hds : ([] : List Diag) = ds := congrArg Prod.snd h2
    rw [← hds] at hd
    exact absurd hd (by simp)
  | cons e rest ih =>
    intro Files F2 ds h d hd
    cases he : processEntry sm chk Ifndefs EndIfs e Files with
    | none => rw [processMacros, he] at h; exact absurd h (by simp)
    | some q =>
      rw [processMacros, he, Option.some_bind] at h
      cases hrest : processMacros sm chk Ifndefs EndIfs rest q.1 with
      | none => rw [hrest] at h; exact absurd h (by simp)
      | some q2 =>
        rw [hrest, Option.map_some'] at h
        have h2 : (q2.1, q.2 ++ q2.2) = (F2, ds) := Option.some.inj h
        have hds : q.2 ++ q2.2 = ds := congrArg Prod.snd h2
        rw [← hds] at hd
        rcases List.mem_append.mp hd with h1 | h1
        · exact processEntry_msgs sm chk Ifndefs EndIfs e Files q.1 q.2 (by rw [he]) d h1
        · exact ih q.1 q2.1 q2.2 hrest d h1

theorem strEndsWith_iff (s t : String) :
    strEndsWith s t = true ↔ ∃ q : String, s = q ++ t := by
  unfold strEndsWith
  rw [List.isSuffixOf_iff_suffix]
  constructor
  · rintro ⟨u, hu⟩
    refine ⟨⟨u⟩, String.ext ?_⟩
    rw [String.data_append]
    exact hu.symm
  · rintro ⟨q, rfl⟩
    exact ⟨q.data, (String.data_append q t).symm⟩

/-- C3: the naming check emits a non-conforming-name diagnostic exactly when
the ifndef name location is valid and the current spelling differs from both
the canonical name and the canonical name with one trailing underscore; when
it fires, the diagnostic carries exactly the two replacement edits over the
`#ifndef` and `#define` name tokens, each substituting the canonical name,
and the returned effective name is the canonical one; otherwise no diagnostic
is emitted and the current name is returned unchanged. -/
theorem C3_naming_check (chk : Check) (ifndefLoc defineLoc : Loc)
    (fileName cur : String) :
    ((checkHeaderGuardDefinition chk ifndefLoc defineLoc fileName cur).1 ≠ [] ↔
      (locValid ifndefLoc = true ∧ cur ≠ chk.getHeaderGuard fileName cur ∧
        cur ≠ chk.getHeaderGuard fileName cur ++ "_")) ∧
    checkHeaderGuardDefinition chk ifndefLoc defineLoc fileName cur =
      (if locValid ifndefLoc ∧ cur ≠ chk.getHeaderGuard fileName cur ∧
          cur ≠ chk.getHeaderGuard fileName cur ++ "_" then
        ([{ loc := ifndefLoc, message := nonConformingMsg,
            fixits := [FixItHint.replacementToken ifndefLoc
                         (ifndefLoc + cur.length) (chk.getHeaderGuard fileName cur),
                       FixItHint.replacementToken defineLoc
                         (defineLoc + cur.length) (chk.getHeaderGuard fileName cur)] }],
         chk.getHeaderGuard fileName cur)
      else ([], cur)) := by
  refine ⟨?_, checkHeaderGuardDefinition_eq chk ifndefLoc defineLoc fileName cur⟩
  rw [checkHeaderGuardDefinition_eq]
  split
  · next hcond => simpa using hcond
  · next hcond => simpa using hcond

/-- C10: with the default policy hooks, the endif-comment and add-guard
policies accept exactly the paths ending in the two-character suffix `.h`
(so `.hpp`, `.hh`, `.hxx` paths are never offered an added guard or an endif
comment), and the fix policy accepts every path. -/
theorem C10_default_policies :
    (∀ p : String, shouldSuggestEndifCommentDefault p = true ↔ ∃ q : String, p = q ++ ".h") ∧
    (∀ p : String, shouldSuggestToAddHeaderGuardDefault p = true ↔ ∃ q : String, p = q ++ ".h") ∧
    (∀ p : String, shouldFixHeaderGuardDefault p = true) ∧
    shouldSuggestEndifCommentDefault "a.hpp" = false ∧
    shouldSuggestEndifCommentDefault "a.hh" = false ∧
    shouldSuggestEndifCommentDefault "a.hxx" = false ∧
    shouldSuggestToAddHeaderGuardDefault "a.hpp" = false ∧
    shouldSuggestToAddHeaderGuardDefault "a.hh" = false ∧
    shouldSuggestToAddHeaderGuardDefault "a.hxx" = false ∧
    shouldSuggestEndifCommentDefault "a.h" = true ∧
    shouldSuggestToAddHeaderGuardDefault "a.h" = true :=
  ⟨fun p => strEndsWith_iff p ".h", fun p => strEndsWith_iff p ".h", fun _ => rfl,
    by decide, by decide, by decide, by decide, by decide, by decide,
    by decide, by decide⟩

/-- C9: end-of-unit reconciliation never fails fatally: whenever every
oracle-accepted macro definition resolves to a file entry (the only partial
operation of the reconciliation; the raw-line read is total, as clang's
`getCharacterData` hands back a buffer even for an invalid location), the
handler returns a result, so the fatal branch of the embedding is
unreachable and every outcome is a list of advisory diagnostics. -/
theorem C9_no_fatal_failure (sm : SourceMgr) (chk : Check) (evs : List Event)
    (h : ((runEvents sm evs).Macros).all (guardResolvable sm) = true) :
    (EndOfMainFile sm chk (runEvents sm evs)).isSome = true := by
  unfold EndOfMainFile
  have hsome := processMacros_isSome sm chk (runEvents sm evs).Ifndefs
    (runEvents sm evs).EndIfs (runEvents sm evs).Macros (runEvents sm evs).Files h
  cases hm : processMacros sm chk (runEvents sm evs).Ifndefs
      (runEvents sm evs).EndIfs (runEvents sm evs).Macros (runEvents sm evs).Files with
  | none => rw [hm] at hsome; exact absurd hsome (by simp)
  | some q => rfl

theorem C9_no_fatal_failure_witness :
    ((runEvents wC9sm wC9evs).Macros).all (guardResolvable wC9sm) = true ∧
    (EndOfMainFile wC9sm wC9chk (runEvents wC9sm wC9evs)).isSome = true :=
  ⟨by decide, C9_no_fatal_failure wC9sm wC9chk wC9evs (by decide)⟩

/-- C1: every macro-definition entry the oracle accepts, whose definition
location resolves to a file entry, has the file record under the canonical
path of that file removed by the loop — the removal happens before (and
regardless of) the fix policy — so the surviving map has no record under
that key, every guardless-reporter diagnostic of the unit stems from a
surviving record with a different key, and the loop's own diagnostics are
never missing-guard or non-topmost diagnostics. -/
theorem C1_guard_removes_file_record (sm : SourceMgr) (chk : Check)
    (evs : List Event) (e : MacroTok × MacroDir) (fe : FileEntry)
    (F2 : List (String × FileEntry)) (ds : List Diag)
    (hmem : e ∈ (runEvents sm evs).Macros)
    (hguard : e.2.usedForHeaderGuard = true)
    (hfe : sm.fileOf e.2.defLoc = some fe)
    (hloop : processMacros sm chk (runEvents sm evs).Ifndefs (runEvents sm evs).EndIfs
      (runEvents sm evs).Macros (runEvents sm evs).Files = some (F2, ds)) :
    alistLookup (cleanPath fe.name) F2 = none ∧
    (∀ d ∈ checkGuardlessHeaders sm chk (runEvents sm evs).Macros F2,
      ∃ p, p ∈ F2 ∧ p.1 ≠ cleanPath fe.name ∧
        d ∈ guardlessFor sm chk (runEvents sm evs).Macros p.1 p.2) ∧
    (∀ d ∈ ds, d.message ≠ missingGuardMsg ∧ d.message ≠ nonTopmostMsg) := by
  have habs : alistLookup (cleanPath fe.name) F2 = none :=
    processMacros_erases sm chk (runEvents sm evs).Ifndefs (runEvents sm evs).EndIfs
      (runEvents sm evs).Macros e fe (runEvents sm evs).Files F2 ds hmem hguard hfe
      (runEvents_Files_WF sm evs) hloop
  refine ⟨habs, ?_, ?_⟩
  · intro d hd
    rcases List.mem_flatMap.mp hd with ⟨p, hp, hdp⟩
    exact ⟨p, hp, (alistLookup_eq_none _ F2).mp habs p hp, hdp⟩
  · intro d hd
    rcases processMacros_msgs sm chk (runEvents sm evs).Ifndefs (runEvents sm evs).EndIfs
        (runEvents sm evs).Macros (runEvents sm evs).Files F2 ds hloop d hd with h1 | h1
    · rw [h1]
      exact ⟨by decide, by decide⟩
    · rw [h1]
      exact ⟨by decide, by decide⟩

theorem C1_guard_removes_file_record_witness :
    alistLookup (cleanPath "w1.h") ([] : List (String × FileEntry)) = none :=
  (C1_guard_removes_file_record wC1sm wC1chk wC1evs (⟨"W1_H", 5⟩, ⟨true, 5⟩)
    ⟨"w1.h", 1, 9⟩ [] [] (by decide) (by decide) (by decide) (by decide)).1

/-- C4: the endif-comment check, invoked only when the endif-comment policy
accepts the path, emits its diagnostic exactly when the endif location is
valid and the raw line at it ends neither with `// <name>` nor with
`/* <name> */`; the single edit replaces the directive text of that line
with `endif  // <name>`; and within an entry's processing the name handed to
the endif-comment check is the one the naming check returned, so an inserted
comment always reflects the corrected name. -/
theorem C4_endif_comment_check :
    (∀ (sm : SourceMgr) (l : Loc) (N : String),
      (checkEndifComment sm l N ≠ [] ↔
        (locValid l = true ∧
         strEndsWith ⟨rawLine sm l⟩ ("// " ++ N) = false ∧
         strEndsWith ⟨rawLine sm l⟩ ("/* " ++ N ++ " */") = false)) ∧
      checkEndifComment sm l N =
        (if locValid l ∧
            strEndsWith ⟨rawLine sm l⟩ ("// " ++ N) = false ∧
            strEndsWith ⟨rawLine sm l⟩ ("/* " ++ N ++ " */") = false then
          [{ loc := l, message := endifCommentMsg,
             fixits := [FixItHint.replacementChar l (l + (rawLine sm l).length)
                          ("endif  // " ++ N)] }]
        else [])) ∧
    (∀ (sm : SourceMgr) (chk : Check) (Ifndefs : List (String × (Loc × Loc)))
      (EndIfs : List (Loc × Loc)) (e : MacroTok × MacroDir)
      (Files : List (String × FileEntry)) (fe : FileEntry),
      e.2.usedForHeaderGuard = true →
      sm.fileOf e.2.defLoc = some fe →
      chk.shouldFixHeaderGuard (cleanPath fe.name) = true →
      processEntry sm chk Ifndefs EndIfs e Files =
        some (alistErase (cleanPath fe.name) Files,
          (checkHeaderGuardDefinition chk
              ((alistLookup e.1.name Ifndefs).getD (0, 0)).2 e.1.loc
              (cleanPath fe.name) e.1.name).1 ++
            (if chk.shouldSuggestEndifComment (cleanPath fe.name) then
              checkEndifComment sm
                ((alistLookup ((alistLookup e.1.name Ifndefs).getD (0, 0)).1 EndIfs).getD 0)
                (checkHeaderGuardDefinition chk
                  ((alistLookup e.1.name Ifndefs).getD (0, 0)).2 e.1.loc
                  (cleanPath fe.name) e.1.name).2
            else []))) := by
  constructor
  · intro sm l N
    refine ⟨?_, checkEndifComment_eq sm l N⟩
    rw [checkEndifComment_eq]
    split
    · next hcond => simpa using hcond
    · next hcond => simpa using hcond
  · intro sm chk Ifndefs EndIfs e Files fe hg hfe hfix
    exact processEntry_fix sm chk Ifndefs EndIfs e Files fe hg hfe hfix

theorem C4_endif_comment_check_witness :
    processEntry wC4sm wC4chk [("FOO", (3, 4))] [(3, 7)] (⟨"FOO", 6⟩, ⟨true, 5⟩) [] =
      some (alistErase (cleanPath "sub/foo.h") [],
        (checkHeaderGuardDefinition wC4chk
            ((alistLookup "FOO" [("FOO", (3, 4))]).getD (0, 0)).2 6
            (cleanPath "sub/foo.h") "FOO").1 ++
          (if wC4chk.shouldSuggestEndifComment (cleanPath "sub/foo.h") then
            checkEndifComment wC4sm
              ((alistLookup ((alistLookup "FOO" [("FOO", (3, 4))]).getD (0, 0)).1
                [(3, 7)]).getD 0)
              (checkHeaderGuardDefinition wC4chk
                ((alistLookup "FOO" [("FOO", (3, 4))]).getD (0, 0)).2 6
                (cleanPath "sub/foo.h") "FOO").2
          else [])) :=
  C4_endif_comment_check.2 wC4sm wC4chk [("FOO", (3, 4))] [(3, 7)]
    (⟨"FOO", 6⟩, ⟨true, 5⟩) [] ⟨"sub/foo.h", 1, 9⟩ (by decide) (by decide) (by decide)

/-- C2 (amended): for a surviving file record with an accepted path *and a
valid start-of-file location*: when the macro sequence holds an entry
spelled as the derived guard name (or that plus one underscore) written in
the record's file, the reporter emits exactly one non-topmost diagnostic
with no edits at the first such entry's definition location and no
missing-guard diagnostic; when no such entry exists it emits exactly one
missing-guard diagnostic at start-of-file with exactly the two insertions,
the end-of-file one carrying the `//`-comment iff the endif-comment policy
accepts the path. -/
theorem C2_guardless_reporter (sm : SourceMgr) (chk : Check)
    (Macros : List (MacroTok × MacroDir)) (fileName : String) (fe : FileEntry)
    (haccept : chk.shouldSuggestToAddHeaderGuard fileName = true)
    (hvalid : locValid fe.startLoc = true) :
    ((∃ e ∈ Macros, matchesGuard sm fe.startLoc (chk.getHeaderGuard fileName "")
        (chk.getHeaderGuard fileName "" ++ "_") e = true) →
      ∃ e, findGuardMacro sm fe.startLoc (chk.getHeaderGuard fileName "")
          (chk.getHeaderGuard fileName "" ++ "_") Macros = some e ∧
        e ∈ Macros ∧
        matchesGuard sm fe.startLoc (chk.getHeaderGuard fileName "")
          (chk.getHeaderGuard fileName "" ++ "_") e = true ∧
        guardlessFor sm chk Macros fileName fe =
          [{ loc := e.1.loc, message := nonTopmostMsg, fixits := [] }]) ∧
    ((∀ e ∈ Macros, matchesGuard sm fe.startLoc (chk.getHeaderGuard fileName "")
        (chk.getHeaderGuard fileName "" ++ "_") e = false) →
      guardlessFor sm chk Macros fileName fe =
        [{ loc := fe.startLoc, message := missingGuardMsg,
           fixits := [FixItHint.insertion fe.startLoc
                        ("#ifndef " ++ chk.getHeaderGuard fileName "" ++ "\n#define " ++
                          chk.getHeaderGuard fileName "" ++ "\n\n"),
                      FixItHint.insertion fe.endLoc
                        (if chk.shouldSuggestEndifComment fileName then
                           "\n#endif  // " ++ chk.getHeaderGuard fileName "" ++ "\n"
                         else "\n#endif\n")] }]) := by
  constructor
  · rintro ⟨e0, he0, hm0⟩
    cases hfind : findGuardMacro sm fe.startLoc (chk.getHeaderGuard fileName "")
        (chk.getHeaderGuard fileName "" ++ "_") Macros with
    | none =>
      have := List.find?_eq_none.mp hfind e0 he0
      rw [hm0] at this
      exact absurd this (by simp)
    | some e =>
      exact ⟨e, rfl, List.mem_of_find?_eq_some hfind, List.find?_some hfind,
        guardlessFor_eq_found sm chk Macros fileName fe e haccept hvalid hfind⟩
  · intro hall
    have hfind : findGuardMacro sm fe.startLoc (chk.getHeaderGuard fileName "")
        (chk.getHeaderGuard fileName "" ++ "_") Macros = none := by
      apply List.find?_eq_none.mpr
      intro x hx
      rw [hall x hx]
      simp
    exact guardlessFor_eq_missing sm chk Macros fileName fe haccept hvalid hfind

theorem C2_guardless_reporter_witness :
    guardlessFor wC2sm wC2chk [] "a.h" ⟨"a.h", 1, 9⟩ =
      [{ loc := 1, message := missingGuardMsg,
         fixits := [FixItHint.insertion 1 "#ifndef A_H\n#define A_H\n\n",
                    FixItHint.insertion 9 "\n#endif  // A_H\n"] }] :=
  (C2_guardless_reporter wC2sm wC2chk [] "a.h" ⟨"a.h", 1, 9⟩ (by decide) (by decide)).2
    (by intro e he; exact absurd he (by simp))

/-- C2 counterexample: a surviving record for an accepted path whose
start-of-file location is invalid; the macro sequence is empty, so the claim
as stated demands exactly one missing-guard diagnostic, yet the reporter
emits nothing (the source skips records whose start-of-file location is
invalid). -/
theorem C2_counterexample :
    wC2chk.shouldSuggestToAddHeaderGuard "a.h" = true ∧
    guardlessFor wC2sm wC2chk [] "a.h" ⟨"a.h", 0, 9⟩ = [] := by
  exact ⟨rfl, rfl⟩

theorem checkHeaderGuardDefinition_invalid (chk : Check) (defineLoc : Loc)
    (fileName cur : String) :
    checkHeaderGuardDefinition chk 0 defineLoc fileName cur = ([], cur) := by
  rw [checkHeaderGuardDefinition_eq]
  exact if_neg (fun h => absurd h.1 (by decide))

theorem checkEndifComment_invalid (sm : SourceMgr) (N : String) :
    checkEndifComment sm 0 N = [] := by
  rw [checkEndifComment_eq]
  exact if_neg (fun h => absurd h.1 (by decide))

/-- C5 (amended): for a guard-qualifying entry, a missing `IfndefCandidate`
entry (when nothing is recorded under the invalid placeholder location
either) silences both the naming check and the endif-comment check; a
missing `EndifPairing` entry silences only the endif-comment check, while
the naming check still runs on the recorded candidate; in both cases the
entry produces a result and the loop continues normally with the remaining
entries. -/
theorem C5_degenerate_lookups (sm : SourceMgr) (chk : Check)
    (Ifndefs : List (String × (Loc × Loc))) (EndIfs : List (Loc × Loc))
    (e : MacroTok × MacroDir) (Files : List (String × FileEntry)) (fe : FileEntry)
    (hg : e.2.usedForHeaderGuard = true)
    (hfe : sm.fileOf e.2.defLoc = some fe) :
    (alistLookup e.1.name Ifndefs = none →
     alistLookup (0 : Loc) EndIfs = none →
     chk.shouldFixHeaderGuard (cleanPath fe.name) = true →
     processEntry sm chk Ifndefs EndIfs e Files =
       some (alistErase (cleanPath fe.name) Files, [])) ∧
    (∀ pr : Loc × Loc, alistLookup e.1.name Ifndefs = some pr →
     alistLookup pr.1 EndIfs = none →
     chk.shouldFixHeaderGuard (cleanPath fe.name) = true →
     processEntry sm chk Ifndefs EndIfs e Files =
       some (alistErase (cleanPath fe.name) Files,
         (checkHeaderGuardDefinition chk pr.2 e.1.loc (cleanPath fe.name) e.1.name).1)) ∧
    (∀ (rest : List (MacroTok × MacroDir)) (Files1 : List (String × FileEntry))
      (ds1 : List Diag),
      processEntry sm chk Ifndefs EndIfs e Files = some (Files1, ds1) →
      processMacros sm chk Ifndefs EndIfs (e :: rest) Files =
        Option.map (fun q => (q.1, ds1 ++ q.2))
          (processMacros sm chk Ifndefs EndIfs rest Files1)) := by
  refine ⟨?_, ?_, ?_⟩
  · intro hifn hendif hfix
    rw [processEntry_fix sm chk Ifndefs EndIfs e Files fe hg hfe hfix, hifn]
    simp [hendif, checkHeaderGuardDefinition_invalid, checkEndifComment_invalid]
  · intro pr hifn hendif hfix
    rw [processEntry_fix sm chk Ifndefs EndIfs e Files fe hg hfe hfix, hifn]
    simp [hendif, checkEndifComment_invalid]
  · intro rest Files1 ds1 h
    exact processMacros_cons sm chk Ifndefs EndIfs e rest Files Files1 ds1 h

theorem C5_degenerate_lookups_witness :
    processEntry wC5sm wC5chk [("FOO", (3, 4))] [] (⟨"FOO", 6⟩, ⟨true, 5⟩) [] =
      some (alistErase (cleanPath "c5.h") [],
        (checkHeaderGuardDefinition wC5chk 4 6 (cleanPath "c5.h") "FOO").1) :=
  (C5_degenerate_lookups wC5sm wC5chk [("FOO", (3, 4))] [] (⟨"FOO", 6⟩, ⟨true, 5⟩) []
      ⟨"c5.h", 1, 9⟩ (by decide) (by decide)).2.1 (3, 4) (by decide) (by decide) (by decide)

/-- C5 counterexample: the `EndifPairing` lookup for the candidate's
directive location misses (the pairing map is empty), yet the entry's naming
check does emit a non-conforming-name diagnostic with its two edits —
contradicting the claim that a missing pairing entry silences both checks of
the entry. -/
theorem C5_counterexample :
    alistLookup (3 : Loc) ([] : List (Loc × Loc)) = none ∧
    processEntry wC5sm wC5chk [("FOO", (3, 4))] [] (⟨"FOO", 6⟩, ⟨true, 5⟩) [] =
      some ([],
        [⟨4, nonConformingMsg,
          [FixItHint.replacementToken 4 7 "C5_H",
           FixItHint.replacementToken 6 9 "C5_H"]⟩]) := by
  exact ⟨rfl, by decide⟩

theorem missingGuardCountFor_le_one (sm : SourceMgr) (chk : Check)
    (Macros : List (MacroTok × MacroDir)) (Files : List (String × FileEntry))
    (k : String) (h : keyCount k Files ≤ 1) :
    missingGuardCountFor sm chk Macros Files k ≤ 1 := by
  unfold missingGuardCountFor
  have hlen : (Files.filter (fun p => decide (p.1 = k))).length ≤ 1 := by
    rw [← List.countP_eq_length_filter]
    exact h
  cases hf : Files.filter (fun p => decide (p.1 = k)) with
  | nil => simp
  | cons p rest =>
    rw [hf] at hlen
    have hrest : rest = [] := by
      cases rest with
      | nil => rfl
      | cons q rest' => simp at hlen
    subst hrest
    simp only [List.flatMap_cons, List.flatMap_nil, List.append_nil]
    exact le_trans (List.countP_le_length _) (guardlessFor_length_le_one sm chk Macros p.1 p.2)

/-- C6: for a pair of enter-file events whose resolved paths canonicalize to
the same key, the per-unit file map holds exactly one record under that key,
and the unit produces at most one missing-guard diagnostic for that path:
the reconciliation loop emits no missing-guard diagnostics at all, and the
guardless diagnostics arising from records stored under that key contain at
most one. -/
theorem C6_duplicate_routes (sm : SourceMgr) (chk : Check) (evs : List Event)
    (l1 l2 : Loc) (fe1 fe2 : FileEntry) (k : String)
    (h1 : Event.fileChanged l1 FileChangeReason.enterFile CharacteristicKind.cUser ∈ evs)
    (_h2 : Event.fileChanged l2 FileChangeReason.enterFile CharacteristicKind.cUser ∈ evs)
    (hfe1 : sm.fileOf l1 = some fe1) (_hfe2 : sm.fileOf l2 = some fe2)
    (hk1 : cleanPath fe1.name = k) (_hk2 : cleanPath fe2.name = k) :
    keyCount k ((runEvents sm evs).Files) = 1 ∧
    (∀ (F2 : List (String × FileEntry)) (ds : List Diag),
      processMacros sm chk (runEvents sm evs).Ifndefs (runEvents sm evs).EndIfs
        (runEvents sm evs).Macros (runEvents sm evs).Files = some (F2, ds) →
      missingGuardCountFor sm chk (runEvents sm evs).Macros F2 k ≤ 1 ∧
      ∀ d ∈ ds, d.message ≠ missingGuardMsg) := by
  constructor
  · rw [← hk1]
    exact runEvents_key_present sm evs l1 fe1 h1 hfe1
  · intro F2 ds hloop
    constructor
    · refine missingGuardCountFor_le_one sm chk (runEvents sm evs).Macros F2 k ?_
      exact processMacros_WF sm chk (runEvents sm evs).Ifndefs (runEvents sm evs).EndIfs
        (runEvents sm evs).Macros (runEvents sm evs).Files F2 ds
        (runEvents_Files_WF sm evs) hloop k
    · intro d hd
      rcases processMacros_msgs sm chk (runEvents sm evs).Ifndefs (runEvents sm evs).EndIfs
          (runEvents sm evs).Macros (runEvents sm evs).Files F2 ds hloop d hd with hm | hm
      · rw [hm]; decide
      · rw [hm]; decide

theorem C6_duplicate_routes_witness :
    keyCount "x.h" ((runEvents wC6sm wC6evs).Files) = 1 :=
  (C6_duplicate_routes wC6sm wC6chk wC6evs 10 20 ⟨"./x.h", 1, 9⟩ ⟨"a/../x.h", 1, 9⟩ "x.h"
    (by decide) (by decide) (by decide) (by decide) (by decide) (by decide)).1

/-- C7 (amended): whenever the end-of-unit handler completes, the resulting
state has all four per-unit containers empty, for every input state; and a
unit whose event stream enters no files at all and whose macro definitions
are all rejected by the guard oracle produces zero diagnostics.  (The claim
as stated — zero diagnostics whenever no *included* file is entered — fails:
entering just the unit's main file can already produce a missing-guard
diagnostic, see the counterexample.) -/
theorem C7_state_cleared :
    (∀ (sm : SourceMgr) (chk : Check) (st : PPState) (ds : List Diag) (st' : PPState),
      EndOfMainFile sm chk st = some (ds, st') → st' = initState) ∧
    (∀ (sm : SourceMgr) (chk : Check) (evs : List Event),
      evs.all (fun e => !isFileChangedEvent e) = true →
      evs.all (fun e => !guardFlagged e) = true →
      EndOfMainFile sm chk (runEvents sm evs) = some ([], initState)) := by
  constructor
  · intro sm chk st ds st' h
    unfold EndOfMainFile at h
    cases hm : processMacros sm chk st.Ifndefs st.EndIfs st.Macros st.Files with
    | none => rw [hm] at h; exact absurd h (by simp)
    | some q =>
      rw [hm, Option.map_some'] at h
      have h2 := Option.some.inj h
      exact (congrArg Prod.snd h2).symm
  · intro sm chk evs hnofc hnoguard
    have hfiles : (runEvents sm evs).Files = [] := by
      have := no_fileChanged_Files_empty sm evs initState hnofc
      exact this
    have hmacros : ∀ e ∈ (runEvents sm evs).Macros, e.2.usedForHeaderGuard = false := by
      intro e he
      rcases foldl_step_Macros_subset sm evs initState e he with h0 | h0
      · exact absurd h0 (by simp [initState])
      · have := List.all_eq_true.mp hnoguard _ h0
        simpa [guardFlagged] using this
    unfold EndOfMainFile
    rw [hfiles,
      processMacros_all_skip sm chk (runEvents sm evs).Ifndefs (runEvents sm evs).EndIfs
        (runEvents sm evs).Macros [] hmacros]
    rfl

theorem C7_state_cleared_witness :
    EndOfMainFile wC7sm wC7chk (runEvents wC7sm wC7evs) = some ([], initState) :=
  C7_state_cleared.2 wC7sm wC7chk wC7evs (by decide) (by decide)

/-- C7 counterexample: a unit whose event stream enters no included files —
it contains exactly one enter-file event, the unit's own main file, here a
standalone guardless header — still produces a diagnostic (the missing-guard
warning), so "zero diagnostics" fails as the claim states it. -/
theorem C7_counterexample :
    EndOfMainFile wC7sm wC7chk
        (runEvents wC7sm
          [Event.fileChanged 10 FileChangeReason.enterFile CharacteristicKind.cUser]) =
      some ([⟨1, missingGuardMsg,
             [FixItHint.insertion 1 "#ifndef C7_H\n#define C7_H\n\n",
              FixItHint.insertion 9 "\n#endif  // C7_H\n"]⟩], initState) := by
  decide
